import Mathlib

/-!
Verification of the Steam-library parsing and reconciliation core of the
MiyaShell repository (`src/backend/steam_library.py` and
`src/backend/steam_downloads.py`), as a shallow embedding in Lean.

Python strings are modelled as Lean `String` (lists of code points, which
matches CPython's `str` comparison and indexing semantics on the code-point
level); Python `int` is modelled as `Int`; Python `float` division in the
download-progress computation is modelled by exact rational division, which
is faithful for the sign/zero/clamping structure the specification talks
about; Python dictionaries are modelled as association lists in insertion
order, which reproduces CPython's documented ordered-dict semantics
(later assignment to an existing key replaces the value in place and keeps
the key's original position).
-/

namespace MiyaShell

/-! ### Python string primitives -/

/-- The `{` character, used by the tokenizer of `steam_library.py`. -/
def lbraceChar : Char := Char.ofNat 123

/-- The `}` character. -/
def rbraceChar : Char := Char.ofNat 125

/-- The `'` character. -/
def squoteChar : Char := Char.ofNat 39

/-- Python `str.isspace` on the ASCII range (the whitespace that appears in
KeyValues files: space, tab, CR, LF, vertical tab, form feed). -/
def pyIsSpace (c : Char) : Bool :=
  c == ' ' || c == '\t' || c == '\n' || c == '\r' || c == '\x0b' || c == '\x0c'

/-- Strip `pyIsSpace` characters from both ends of a character list,
modelling Python `str.strip()`. -/
def stripChars (l : List Char) : List Char :=
  ((l.dropWhile pyIsSpace).reverse.dropWhile pyIsSpace).reverse

/-- Python `str.strip()`. -/
def pyStrip (s : String) : String :=
  String.mk (stripChars s.data)

/-- Python `str.casefold()` on the ASCII range (where it agrees with
lowercasing), as used by the sort key of `merge_games`. -/
def pyCasefold (s : String) : String :=
  String.mk (s.data.map Char.toLower)

/-- Code-point-wise lexicographic `<=` on character lists: Python's string
comparison. -/
def charLe : List Char → List Char → Bool
  | [], _ => true
  | _ :: _, [] => false
  | a :: as, b :: bs =>
    if a.toNat < b.toNat then true
    else if b.toNat < a.toNat then false
    else charLe as bs

/-- Python string `<=`. -/
def strLe (s t : String) : Bool :=
  charLe s.data t.data

/-- Prefix test on character lists. -/
def charPrefix : List Char → List Char → Bool
  | _, [] => true
  | [], _ :: _ => false
  | a :: as, b :: bs => a == b && charPrefix as bs

/-- Python `str.startswith`: code-point prefix test. -/
def strStartsWith (s p : String) : Bool :=
  charPrefix s.data p.data

/-- Digit run of a Python integer literal body: ASCII digits with single
underscores allowed between digits (as accepted by `int(...)`). -/
def digitsVal : List Char → Int → Option Int
  | [], acc => some acc
  | c :: r, acc =>
    if c.isDigit then digitsVal r (acc * 10 + ((c.toNat - 48 : Nat) : Int))
    else if c == '_' then
      match r with
      | d :: r2 =>
        if d.isDigit then digitsVal r2 (acc * 10 + ((d.toNat - 48 : Nat) : Int))
        else none
      | [] => none
    else none

/-- First digit plus digit run. -/
def digitsStart : List Char → Option Int
  | c :: r => if c.isDigit then digitsVal r ((c.toNat - 48 : Nat) : Int) else none
  | [] => none

/-- Python `int(s)` for a decimal string: surrounding whitespace stripped,
optional sign, nonempty digit run (ASCII digits modelled); `none` models the
`ValueError` on any other input. -/
def pyParseInt (s : String) : Option Int :=
  match stripChars s.data with
  | '+' :: r => digitsStart r
  | '-' :: r => (digitsStart r).map (fun n => -n)
  | r => digitsStart r

/-! ### KeyValues tokens and trees -/

/-- A token of the KeyValues tokenizer `tokenize_keyvalues`: a string, or one
of the two brace sentinels `LBRACE` / `RBRACE`. -/
inductive Token where
  | str (s : String) : Token
  | lbrace : Token
  | rbrace : Token
deriving DecidableEq, Repr

/-- A node of the parsed KeyValues tree: the Python code uses `str` values
and nested `dict`s; dictionaries are association lists in insertion order. -/
inductive Node where
  | str (s : String) : Node
  | block (entries : List (String × Node)) : Node

/-- A parsed block: one Python `dict` in insertion order. -/
abbrev Block := List (String × Node)

/-- Association-list lookup: Python `dict.get`. -/
def lookupKV {κ α : Type} [DecidableEq κ] : List (κ × α) → κ → Option α
  | [], _ => none
  | (k, v) :: r, key => if k = key then some v else lookupKV r key

/-- Python `dict` assignment `d[k] = v`: replace the value in place when the
key exists (keeping the key's original position), otherwise append at the
end. The first matching entry is replaced, which is exhaustive because a
dict never holds two entries with the same key. -/
def dictInsert : Block → String → Node → Block
  | [], k, v => [(k, v)]
  | p :: r, k, v => if p.1 = k then (k, v) :: r else p :: dictInsert r k v

/-! ### Tokenizer (`tokenize_keyvalues`) -/

/-- The single tokenizer failure: `ValueError(f"Invalid quoted string at
offset {i}")` raised when the quoted-string regex does not match. -/
inductive TokenizeError where
  | malformedQuote (offset : Nat) : TokenizeError
deriving DecidableEq, Repr

/-- The body of the regex `"([^"\\]*(?:\\.[^"\\]*)*)"` applied after an
opening quote: returns the raw group content (escapes included) and the
characters after the closing quote, or `none` when the regex does not match.
`\\.` in Python matches any character except a newline, which is mirrored
here. -/
def quotedTail : List Char → Option (List Char × List Char)
  | [] => none
  | c :: r =>
    if c == '"' then some ([], r)
    else if c == '\\' then
      match r with
      | [] => none
      | d :: r2 =>
        if d == '\n' then none
        else (quotedTail r2).map (fun p => (c :: d :: p.1, p.2))
    else (quotedTail r).map (fun p => (c :: p.1, p.2))

/-- `_unescape`: Python `unicode_escape` decoding restricted to the simple
escape sequences (the source comments call its handling "minimal": `\"`,
`\\`, `\n` and the like; `\x`/`\u`/octal forms do not occur in Steam files
and are left as-is here, matching the unknown-escape passthrough). -/
def pyUnescape : List Char → List Char
  | [] => []
  | c :: r =>
    if c == '\\' then
      match r with
      | [] => [c]
      | d :: r2 =>
        (if d == 'n' then ['\n']
         else if d == 't' then ['\t']
         else if d == 'r' then ['\r']
         else if d == '\\' then ['\\']
         else if d == '"' then ['"']
         else if d == squoteChar then [squoteChar]
         else if d == 'a' then ['\x07']
         else if d == 'b' then ['\x08']
         else if d == 'f' then ['\x0c']
         else if d == 'v' then ['\x0b']
         else if d == '0' then ['\x00']
         else ['\\', d]) ++ pyUnescape r2
    else c :: pyUnescape r

/-- Character allowed inside a bareword token: not whitespace and not a
brace (mirrors `not text[j].isspace() and text[j] not in "{}"`). -/
def bareChar (c : Char) : Bool :=
  !(pyIsSpace c) && !(c == lbraceChar) && !(c == rbraceChar)

/-- The tokenizer loop of `tokenize_keyvalues`, over the remaining
characters, with `pos` the code-point offset of the first remaining
character (used only in the error). `fuel` bounds the number of loop
iterations; every iteration consumes at least one character, so any
`fuel > length` computes the real result (`tokenizeAux_fuel`). -/
def tokenizeAux : Nat → Nat → List Char → Except TokenizeError (List Token)
  | 0, _, _ => .ok []
  | _ + 1, _, [] => .ok []
  | fuel + 1, pos, c :: rest =>
    if pyIsSpace c then tokenizeAux fuel (pos + 1) rest
    else if c == '/' && rest.head? == some '/' then
      match rest.findIdx? (fun ch => ch == '\n') with
      | none => .ok []
      | some j => tokenizeAux fuel (pos + j + 2) (rest.drop (j + 1))
    else if c == lbraceChar then
      (tokenizeAux fuel (pos + 1) rest).map (fun ts => Token.lbrace :: ts)
    else if c == rbraceChar then
      (tokenizeAux fuel (pos + 1) rest).map (fun ts => Token.rbrace :: ts)
    else if c == '"' then
      match quotedTail rest with
      | none => .error (.malformedQuote pos)
      | some (raw, r) =>
        (tokenizeAux fuel (pos + raw.length + 2) r).map
          (fun ts => Token.str (String.mk (pyUnescape raw)) :: ts)
    else
      let run := (c :: rest).takeWhile bareChar
      (tokenizeAux fuel (pos + run.length) ((c :: rest).drop run.length)).map
        (fun ts => Token.str (String.mk run) :: ts)

/-- `tokenize_keyvalues`: the fully elaborated token stream of a document
(the Python generator, run to completion). -/
def tokenize_keyvalues (text : String) : Except TokenizeError (List Token) :=
  tokenizeAux (text.data.length + 1) 0 text.data

/-! ### Tree parser (`parse_keyvalues`) -/

/-- The parser failures of `parse_keyvalues`:
`ValueError("Unexpected '{' while parsing object")`,
`ValueError(f"Unexpected EOF after key {key!r}")` and
`ValueError("Unexpected '}' after key")`. -/
inductive ParseError where
  | unexpectedOpen : ParseError
  | eofAfterKey (key : String) : ParseError
  | closeAfterKey : ParseError
deriving DecidableEq, Repr

/-- Unwinding of the recursion of `parse_object` on end of stream: each
pending recursive call receives the nested block just built, stores it under
its key and then itself returns on `StopIteration`. -/
def unwind : Block → List (String × Block) → Block
  | acc, [] => acc
  | acc, (k, p) :: st => unwind (dictInsert p k (.block acc)) st

/-- The recursive descent of `parse_object`, phrased iteratively: `acc` is
the block being filled by the innermost active call and `stack` holds, outer
calls' keys and partial blocks. Faithful to `parse_keyvalues`:
end of stream returns all pending blocks (no error); `RBRACE` returns the
current block — at the top level this ends the whole parse, discarding any
remaining tokens; `LBRACE` where a key is expected is an error; a key
followed by end of stream or by `RBRACE` is an error. -/
def parseLoop : List Token → Block → List (String × Block) → Except ParseError Block
  | [], acc, stack => .ok (unwind acc stack)
  | .rbrace :: _, acc, [] => .ok acc
  | .rbrace :: ts, acc, (k, p) :: stack => parseLoop ts (dictInsert p k (.block acc)) stack
  | .lbrace :: _, _, _ => .error .unexpectedOpen
  | .str k :: [], _, _ => .error (.eofAfterKey k)
  | .str _ :: .rbrace :: _, _, _ => .error .closeAfterKey
  | .str k :: .lbrace :: ts, acc, stack => parseLoop ts [] ((k, acc) :: stack)
  | .str k :: .str v :: ts, acc, stack => parseLoop ts (dictInsert acc k (.str v)) stack

/-- `parse_keyvalues(tokens)`: parse a token stream into the root block. -/
def parse_keyvalues (ts : List Token) : Except ParseError Block :=
  parseLoop ts [] []

/-- `load_keyvalues_file` on the text of a file, together with the
`try/except` guard present at every call site that can see a malformed file
(`discover_library_paths`, `parse_installed_games`, `_extract_appstate`):
any tokenizer or parser failure becomes `none`. -/
def load_keyvalues_guarded (text : String) : Option Block :=
  match tokenize_keyvalues text with
  | .error _ => none
  | .ok ts =>
    match parse_keyvalues ts with
    | .error _ => none
    | .ok b => some b

/-! ### Python `repr`/`str` of parsed values (used by `_int` and the name
fallbacks when a manifest field unexpectedly holds a nested block) -/

/-- One character of a Python string repr, escaped for quote `q`. -/
def reprEscape (q c : Char) : List Char :=
  if c == '\\' then ['\\', '\\']
  else if c == q then ['\\', q]
  else if c == '\n' then ['\\', 'n']
  else if c == '\r' then ['\\', 'r']
  else if c == '\t' then ['\\', 't']
  else [c]

/-- Python `repr` of a string: single-quoted, switching to double quotes
when the text contains a single quote but no double quote (printable
characters modelled). -/
def pyReprStr (s : String) : String :=
  let q := if s.data.contains squoteChar && !(s.data.contains '"') then '"' else squoteChar
  String.mk (q :: (s.data.flatMap (reprEscape q)) ++ [q])

mutual

/-- Python `str`/`repr` of a parsed node (a `str` or a nested `dict`). -/
def nodeRepr : Node → String
  | .str s => pyReprStr s
  | .block b => "\x7b" ++ entriesRepr b ++ "\x7d"

/-- Comma-separated `repr` entries of a Python dict. -/
def entriesRepr : List (String × Node) → String
  | [] => ""
  | [p] => pyReprStr p.1 ++ ": " ++ nodeRepr p.2
  | p :: q :: r => pyReprStr p.1 ++ ": " ++ nodeRepr p.2 ++ ", " ++ entriesRepr (q :: r)

end

/-- Python `str(x)` for `x = d.get(key)`: `None` prints as `"None"`, a
string is itself, a dict prints as its repr. -/
def pyStrOfOpt : Option Node → String
  | none => "None"
  | some (.str s) => s
  | some (.block b) => nodeRepr (.block b)

/-- Python `str(x or "")` for `x = d.get(key)`: `None`, the empty string
and the empty dict are falsy and give `""`. -/
def orEmptyStr : Option Node → String
  | none => ""
  | some (.str s) => s
  | some (.block []) => ""
  | some (.block b) => nodeRepr (.block b)

/-- `_int(x, default=0)` from `steam_library.py`: `int(str(x))` with 0 on
any conversion failure. -/
def _int (v : Option Node) : Int :=
  match pyParseInt (pyStrOfOpt v) with
  | some n => n
  | none => 0

/-! ### Filesystem model and path handling -/

/-- Split a character list on a separator. -/
def splitOnChar (sep : Char) (l : List Char) : List (List Char) :=
  l.foldr
    (fun c acc =>
      match acc with
      | [] => [[c]]
      | seg :: rest => if c == sep then [] :: seg :: rest else (c :: seg) :: rest)
    [[]]

/-- The normalized string form of a `pathlib.Path`: redundant slashes and
`.` segments removed, `..` kept (pure paths do not resolve it), `/` kept
for the root, `.` for an empty relative path. -/
def normPath (s : String) : String :=
  let segs := (splitOnChar '/' s.data).filter (fun seg => seg ≠ [] ∧ seg ≠ ['.'])
  if s.data.head? = some '/' then String.mk ('/' :: List.intercalate ['/'] segs)
  else if segs = [] then "."
  else String.mk (List.intercalate ['/'] segs)

/-- `Path.expanduser()` for the `~`-prefixed forms used by the code
(`~user` lookups are out of scope and left unchanged). -/
def expanduser (home p : String) : String :=
  if p = "~" then home
  else if strStartsWith p "~/" then home ++ String.mk (p.data.drop 1)
  else p

/-- The filesystem as seen by the scripts: the user's home directory (for
`expanduser`), the set of existing directories and the readable files with
their text contents, all keyed by normalized path. -/
structure FS where
  home : String
  dirs : List String
  files : List (String × String)

/-- `Path.is_dir()`. -/
def FS.isDir (fs : FS) (p : String) : Bool :=
  fs.dirs.contains (normPath p)

/-- `Path.read_text()` for files present in the model, by normalized path. -/
def FS.fileContents (fs : FS) (p : String) : Option String :=
  lookupKV fs.files (normPath p)

/-- `Path.exists()`. -/
def FS.pathExists (fs : FS) (p : String) : Bool :=
  fs.isDir p || (fs.fileContents p).isSome

/-! ### Library locator (`discover_library_paths`) -/

/-- The canonical form a candidate path takes inside `discover_library_paths`
(`p = p.expanduser()` followed by `Path` normalization). -/
def canonPath (fs : FS) (p : String) : String :=
  normPath (expanduser fs.home p)

/-- A candidate qualifies when its `steamapps` child is a directory. -/
def hasSteamapps (fs : FS) (p : String) : Bool :=
  fs.isDir (p ++ "/steamapps")

/-- The `add` closure of `discover_library_paths`: expanduser, then append
if `steamapps` exists below and the path is not yet present. -/
def addLib (fs : FS) (libs : List String) (p : String) : List String :=
  let p2 := canonPath fs p
  if hasSteamapps fs p2 ∧ p2 ∉ libs then libs ++ [p2] else libs

/-- The `"path"` strings extracted from the `"libraryfolders"` block, in
iteration order: one per child that is a dict carrying a nonempty string
`"path"`. -/
def descriptorPaths (root : Block) : List String :=
  root.flatMap
    (fun p =>
      match p.2 with
      | .block v =>
        match lookupKV v "path" with
        | some (.str s) => if s ≠ "" then [s] else []
        | _ => []
      | _ => [])

/-- `discover_library_paths(steam_root)`. -/
def discover_library_paths (fs : FS) (steam_root : String) : List String :=
  let libs0 := addLib fs [] steam_root
  match fs.fileContents (steam_root ++ "/steamapps/libraryfolders.vdf") with
  | none => libs0
  | some text =>
    match load_keyvalues_guarded text with
    | none => libs0
    | some kv =>
      match lookupKV kv "libraryfolders" with
      | some (.block root) => (descriptorPaths root).foldl (addLib fs) libs0
      | _ => libs0

/-! ### Manifest extractor (`parse_installed_games` loop body) and covers -/

/-- The `Game` dataclass of `steam_library.py`. -/
structure Game where
  appid : Int
  name : String
  installed : Bool
  library_path : String
  installdir : String
  state_flags : Int
  size_on_disk : Int
  cover : String
deriving DecidableEq, Repr

/-- `find_cover(steam_root, appid)`: first existing conventional library
asset under `appcache/librarycache`, else `""`. -/
def find_cover (fs : FS) (steam_root : String) (appid : Int) : String :=
  let cache := steam_root ++ "/appcache/librarycache"
  if !(fs.isDir cache) then ""
  else
    let cands :=
      [cache ++ "/" ++ toString appid ++ "_library_600x900.jpg",
       cache ++ "/" ++ toString appid ++ "_library_600x900.png",
       cache ++ "/" ++ toString appid ++ "_library_capsule.jpg",
       cache ++ "/" ++ toString appid ++ "_library_capsule.png",
       cache ++ "/" ++ toString appid ++ "_header.jpg",
       cache ++ "/" ++ toString appid ++ "_header.png"]
    match cands.find? (fun c => fs.pathExists c) with
    | some c => normPath c
    | none => ""

/-- The loop body of `parse_installed_games` for one manifest's parsed
tree: project the `"AppState"` block into a `Game`, or nothing when the
block is missing or `appid` is 0/unparseable. -/
def parse_installed_game (fs : FS) (steam_root lib : String) (kv : Block) : Option Game :=
  match lookupKV kv "AppState" with
  | some (.block appstate) =>
    let appid := _int (lookupKV appstate "appid")
    if appid = 0 then none
    else
      let name :=
        let t := pyStrip (orEmptyStr (lookupKV appstate "name"))
        if t = "" then "App " ++ toString appid else t
      some
        { appid := appid
          name := name
          installed := true
          library_path := lib
          installdir := pyStrip (orEmptyStr (lookupKV appstate "installdir"))
          state_flags := _int (lookupKV appstate "StateFlags")
          size_on_disk := _int (lookupKV appstate "SizeOnDisk")
          cover := find_cover fs steam_root appid }
  | _ => none

/-! ### Reconciler (`merge_games`) -/

/-- An entry of the `owned` map handed to `merge_games`: a Web-API game
dict, of which the merge reads only the `"name"` field (`none` models a
missing name). -/
structure OwnedGame where
  name : Option String
deriving DecidableEq, Repr

/-- In-place rename of the games stored under a key, modelling the mutation
`merged[appid].name = og["name"]` (dict keys are unique, so at most one
entry changes). -/
def setName (merged : List (Int × Game)) (appid : Int) (nm : String) : List (Int × Game) :=
  merged.map (fun p => if p.1 = appid then (p.1, { p.2 with name := nm }) else p)

/-- The `for appid, og in owned.items()` loop of `merge_games`, starting
from `merged = dict(installed)` (which shares the `Game` objects with
`installed`): a shared appid whose current name starts with `"App "` and
whose owned dict has a string name is renamed in place; an unshared appid
appends a fresh not-installed record. -/
def merge_games_loop (fs : FS) (steam_root : String) :
    List (Int × Game) → List (Int × OwnedGame) → List (Int × Game)
  | merged, [] => merged
  | merged, (appid, og) :: rest =>
    match lookupKV merged appid with
    | some g =>
      match og.name with
      | some nm =>
        if strStartsWith g.name "App " then
          merge_games_loop fs steam_root (setName merged appid nm) rest
        else
          merge_games_loop fs steam_root merged rest
      | none => merge_games_loop fs steam_root merged rest
    | none =>
      let nm :=
        let t := pyStrip (og.name.getD "")
        if t = "" then "App " ++ toString appid else t
      merge_games_loop fs steam_root
        (merged ++
          [(appid,
            { appid := appid
              name := nm
              installed := false
              library_path := ""
              installdir := ""
              state_flags := 0
              size_on_disk := 0
              cover := find_cover fs steam_root appid })])
        rest

/-- Stable insertion of `x` into a list sorted by `le`: `x` goes before the
first element it compares `le` to, hence after all earlier elements with an
equal key. -/
def insertSorted (le : α → α → Bool) (x : α) : List α → List α
  | [] => [x]
  | y :: ys => if le x y then x :: y :: ys else y :: insertSorted le x ys

/-- A stable sort by `le` (insertion sort), extensionally equal to Python's
stable `sorted` for any total preorder `le`. -/
def pySorted (le : α → α → Bool) : List α → List α
  | [] => []
  | x :: xs => insertSorted le x (pySorted le xs)

/-- The sort comparison of `merge_games`: `key=lambda g: g.name.casefold()`. -/
def gameLe (g h : Game) : Bool :=
  strLe (pyCasefold g.name) (pyCasefold h.name)

/-- `merge_games(installed, owned, steam_root)`: reconcile and sort for the
UI. -/
def merge_games (fs : FS) (steam_root : String)
    (installed : List (Int × Game)) (owned : List (Int × OwnedGame)) : List Game :=
  pySorted gameLe ((merge_games_loop fs steam_root installed owned).map Prod.snd)

/-! ### Download-progress projection (`_maybe_download_entry`) -/

/-- One entry of the downloads view emitted by `steam_downloads.py`;
`progress` is modelled as an exact rational. -/
structure DownloadEntry where
  appid : Int
  name : String
  library_path : String
  bytes_downloaded : Int
  bytes_to_download : Int
  bytes_to_stage : Int
  total_bytes : Int
  progress : ℚ
  state_flags : Int
deriving DecidableEq, Repr

/-- `max(0.0, min(1.0, x))` from `_maybe_download_entry`, written with
explicit comparisons (value-wise identical to the nested `max`/`min`) so
that it computes by kernel reduction. -/
def clamp01 (x : ℚ) : ℚ :=
  if x < 0 then 0 else if 1 < x then 1 else x

/-- `str(appstate.get("name") or f"App {appid}")`. -/
def downloadName (v : Option Node) (appid : Int) : String :=
  match v with
  | none => "App " ++ toString appid
  | some (.str s) => if s = "" then "App " ++ toString appid else s
  | some (.block []) => "App " ++ toString appid
  | some (.block b) => nodeRepr (.block b)

/-- `_maybe_download_entry(appstate, library_path)` from
`steam_downloads.py`. -/
def _maybe_download_entry (appstate : Block) (library_path : String) : Option DownloadEntry :=
  let appid := _int (lookupKV appstate "appid")
  if appid = 0 then none
  else
    let name := downloadName (lookupKV appstate "name") appid
    let bytes_downloaded := _int (lookupKV appstate "BytesDownloaded")
    let bytes_to_download := _int (lookupKV appstate "BytesToDownload")
    let bytes_to_stage := _int (lookupKV appstate "BytesToStage")
    let state_flags := _int (lookupKV appstate "StateFlags")
    if bytes_to_download ≤ 0 ∧ bytes_to_stage ≤ 0 then none
    else
      let total := bytes_downloaded + max bytes_to_download 0
      let progress : ℚ :=
        if total > 0 then clamp01 ((bytes_downloaded : ℚ) / (total : ℚ)) else 0
      some
        { appid := appid
          name := name
          library_path := library_path
          bytes_downloaded := bytes_downloaded
          bytes_to_download := bytes_to_download
          bytes_to_stage := bytes_to_stage
          total_bytes := total
          progress := progress
          state_flags := state_flags }

/-! ### Parser state reachability

`PReaches ts acc st ts' acc' st'` says: started on the token stream `ts`
with current block `acc` and pending outer blocks `st`, the recursive
descent of `parse_keyvalues` reaches (after zero or more steps) the state
with remaining tokens `ts'`, current block `acc'` and pending stack `st'`.
The three step constructors mirror the three continuing branches of
`parseLoop` exactly. -/

inductive PReaches :
    List Token → Block → List (String × Block) →
    List Token → Block → List (String × Block) → Prop where
  | refl (ts : List Token) (acc : Block) (st : List (String × Block)) :
      PReaches ts acc st ts acc st
  | strStr (k v : String) (ts : List Token) (acc : Block) (st : List (String × Block))
      (ts2 : List Token) (acc2 : Block) (st2 : List (String × Block))
      (h : PReaches ts (dictInsert acc k (.str v)) st ts2 acc2 st2) :
      PReaches (.str k :: .str v :: ts) acc st ts2 acc2 st2
  | strOpen (k : String) (ts : List Token) (acc : Block) (st : List (String × Block))
      (ts2 : List Token) (acc2 : Block) (st2 : List (String × Block))
      (h : PReaches ts [] ((k, acc) :: st) ts2 acc2 st2) :
      PReaches (.str k :: .lbrace :: ts) acc st ts2 acc2 st2
  | closePop (k : String) (p : Block) (ts : List Token) (acc : Block)
      (st : List (String × Block))
      (ts2 : List Token) (acc2 : Block) (st2 : List (String × Block))
      (h : PReaches ts (dictInsert p k (.block acc)) st ts2 acc2 st2) :
      PReaches (.rbrace :: ts) acc ((k, p) :: st) ts2 acc2 st2

/-- Every continuing branch of `parseLoop` is a tail call, so the final
result computed from a state equals the result computed from any state it
reaches. -/
theorem parseLoop_of_preaches
    {ts : List Token} {acc : Block} {st : List (String × Block)}
    {ts2 : List Token} {acc2 : Block} {st2 : List (String × Block)}
    (h : PReaches ts acc st ts2 acc2 st2) :
    parseLoop ts acc st = parseLoop ts2 acc2 st2 := by
  induction h with
  | refl => rfl
  | strStr k v ts acc st ts2 acc2 st2 h ih => simpa [parseLoop] using ih
  | strOpen k ts acc st ts2 acc2 st2 h ih => simpa [parseLoop] using ih
  | closePop k p ts acc st ts2 acc2 st2 h ih => simpa [parseLoop] using ih

/-! ### Association-list lemmas for Python dict behaviour -/

theorem lookupKV_append {κ α : Type} [DecidableEq κ] (l1 l2 : List (κ × α)) (k : κ) :
    lookupKV (l1 ++ l2) k =
      (match lookupKV l1 k with
       | some v => some v
       | none => lookupKV l2 k) := by
  induction l1 with
  | nil => simp [lookupKV]
  | cons p r ih =>
    by_cases h : p.1 = k <;> simp [lookupKV, h, ih]

theorem lookupKV_eq_none_iff {κ α : Type} [DecidableEq κ] (l : List (κ × α)) (k : κ) :
    lookupKV l k = none ↔ k ∉ l.map Prod.fst := by
  induction l with
  | nil => simp [lookupKV]
  | cons p r ih =>
    by_cases h : p.1 = k
    · simp [lookupKV, h]
    · have hkp : ¬k = p.1 := fun hc => h hc.symm
      simp only [lookupKV, if_neg h, List.map_cons, List.mem_cons, ih, not_or]
      exact ⟨fun hn => ⟨hkp, hn⟩, fun hn => hn.2⟩

theorem keys_dictInsert (b : Block) (k : String) (v : Node) :
    (dictInsert b k v).map Prod.fst =
      if k ∈ b.map Prod.fst then b.map Prod.fst else b.map Prod.fst ++ [k] := by
  induction b with
  | nil => simp [dictInsert]
  | cons p r ih =>
    by_cases h : p.1 = k
    · simp [dictInsert, h]
    · have hkp : ¬k = p.1 := fun hc => h hc.symm
      by_cases hm : k ∈ r.map Prod.fst <;>
        simp [dictInsert, h, hm, ih, hkp]

theorem lookup_dictInsert_self (b : Block) (k : String) (v : Node) :
    lookupKV (dictInsert b k v) k = some v := by
  induction b with
  | nil => simp [dictInsert, lookupKV]
  | cons p r ih =>
    by_cases h : p.1 = k <;> simp [dictInsert, lookupKV, h, ih]

theorem lookup_dictInsert_ne (b : Block) (k k' : String) (v : Node) (h : k' ≠ k) :
    lookupKV (dictInsert b k v) k' = lookupKV b k' := by
  induction b with
  | nil => simp [dictInsert, lookupKV, Ne.symm h]
  | cons p r ih =>
    by_cases hk : p.1 = k
    · have hne : p.1 ≠ k' := fun hc => h (hc ▸ hk ▸ rfl)
      simp [dictInsert, lookupKV, hk, hne, Ne.symm h, hk ▸ hne]
    · by_cases hk' : p.1 = k' <;> simp [dictInsert, lookupKV, hk, hk', h, ih]

/-! ### Claim C10: end of stream inside a nested block -/

/-- Claim C10: a token stream that ends where a key is expected — in
particular inside any chain of still-open nested blocks — is not an error:
the parser returns the tree in which every pending block holds the
key/value pairs read so far (the innermost partial block is stored under
its key in its parent, and so on outwards). -/
theorem parse_eof_inside_nested_ok
    (ts : List Token) (acc : Block) (stack : List (String × Block))
    (h : PReaches ts [] [] [] acc stack) :
    parse_keyvalues ts = .ok (unwind acc stack) := by
  unfold parse_keyvalues
  rw [parseLoop_of_preaches h]
  rfl

/-- Witness for C10: `"a" { "b" "1"` (a nested block that is never closed)
parses successfully to `a -> { b -> "1" }`. -/
theorem parse_eof_inside_nested_ok_witness :
    parse_keyvalues [Token.str "a", Token.lbrace, Token.str "b", Token.str "1"]
      = .ok [("a", Node.block [("b", Node.str "1")])] :=
  parse_eof_inside_nested_ok _ _ _
    (.strOpen _ _ _ _ _ _ _ (.strStr _ _ _ _ _ _ _ _ (.refl _ _ _)))

/-! ### Claim C6 (corrected): bare braces where a key is expected -/

/-- Counterexample to claim C6 as stated: a `CloseBlock` at the top level
(matching no `OpenBlock`) does **not** make the parser fail — `parse_object`
treats `RBRACE` as normal termination even at the top level, so the stream
`[}]` returns the empty tree instead of an `UnexpectedToken` error. -/
theorem parse_close_toplevel_not_fatal_cex :
    parse_keyvalues [Token.rbrace] = .ok [] := rfl

/-- Claim C6 (amended): a bare `OpenBlock` where a key is expected is a
fatal `UnexpectedToken` error; a `CloseBlock` where a key is expected at
the top level, matching no `OpenBlock`, instead terminates the parse
successfully, returning the top-level block accumulated so far and
discarding the remaining tokens. -/
theorem parse_bare_open_fatal_and_close_toplevel_returns :
    (∀ (ts rest : List Token) (acc2 : Block) (st2 : List (String × Block)),
      PReaches ts [] [] (Token.lbrace :: rest) acc2 st2 →
      parse_keyvalues ts = .error .unexpectedOpen)
    ∧ (∀ (ts rest : List Token) (acc2 : Block),
      PReaches ts [] [] (Token.rbrace :: rest) acc2 [] →
      parse_keyvalues ts = .ok acc2) := by
  constructor
  · intro ts rest acc2 st2 h
    unfold parse_keyvalues
    rw [parseLoop_of_preaches h]
    rfl
  · intro ts rest acc2 h
    unfold parse_keyvalues
    rw [parseLoop_of_preaches h]
    rfl

/-- Witness for the amended C6: `[{]` fails with the `UnexpectedToken`
error, and `["k" "v" }] "x"` returns `{k -> v}` successfully, discarding
the trailing token. -/
theorem parse_bare_open_fatal_and_close_toplevel_returns_witness :
    parse_keyvalues [Token.lbrace] = .error .unexpectedOpen
    ∧ parse_keyvalues
        [Token.str "k", Token.str "v", Token.rbrace, Token.str "x"] = .ok [("k", Node.str "v")] :=
  ⟨parse_bare_open_fatal_and_close_toplevel_returns.1 [Token.lbrace] [] [] []
      (.refl _ _ _),
   parse_bare_open_fatal_and_close_toplevel_returns.2 _ [Token.str "x"] _
      (.strStr "k" "v" _ [] [] _ _ _ (.refl _ _ _))⟩

/-! ### Claim C4: duplicate keys inside one block -/

/-- The token stream of a flat document: the keys and string values in
source order. -/
def flatTokens (pairs : List (String × String)) : List Token :=
  pairs.flatMap (fun p => [Token.str p.1, Token.str p.2])

/-- The block the parser builds from a flat document: repeated Python dict
assignment in source order. -/
def blockOfPairs (pairs : List (String × String)) : Block :=
  pairs.foldl (fun b p => dictInsert b p.1 (.str p.2)) []

/-- The value of the last occurrence of key `k` in a pair list. -/
def lastVal (pairs : List (String × String)) (k : String) : Option String :=
  pairs.foldl (fun o p => if p.1 = k then some p.2 else o) none

/-- Deduplication keeping the first occurrence of each element, relative to
an already-seen set; mirrors both Python dict key order under overwrites
and the `p not in libs` check of `discover_library_paths`. -/
def firstDedupAux (seen : List String) : List String → List String
  | [] => []
  | a :: l => if a ∈ seen then firstDedupAux seen l else a :: firstDedupAux (a :: seen) l

theorem mem_firstDedupAux (x : String) (l : List String) :
    ∀ seen : List String, (x ∈ firstDedupAux seen l ↔ x ∈ l ∧ x ∉ seen) := by
  induction l with
  | nil => intro seen; simp [firstDedupAux]
  | cons a l ih =>
    intro seen
    by_cases ha : a ∈ seen
    · rw [firstDedupAux, if_pos ha, ih]
      constructor
      · exact fun hx => ⟨List.mem_cons_of_mem a hx.1, hx.2⟩
      · rintro ⟨hx, hs⟩
        rcases List.mem_cons.1 hx with rfl | hx
        · exact absurd ha hs
        · exact ⟨hx, hs⟩
    · rw [firstDedupAux, if_neg ha]
      by_cases hxa : x = a
      · subst hxa
        simp [ha]
      · rw [List.mem_cons, ih]
        simp [hxa, List.mem_cons]

theorem firstDedupAux_append (k : String) (xs : List String) :
    ∀ seen : List String,
      firstDedupAux seen (xs ++ [k]) =
        firstDedupAux seen xs ++ (if k ∈ seen ∨ k ∈ xs then [] else [k]) := by
  induction xs with
  | nil =>
    intro seen
    by_cases hk : k ∈ seen <;> simp [firstDedupAux, hk]
  | cons a xs ih =>
    intro seen
    by_cases ha : a ∈ seen
    · rw [List.cons_append, firstDedupAux, if_pos ha, firstDedupAux, if_pos ha, ih]
      by_cases hka : k = a
      · subst hka
        simp [ha]
      · simp [hka]
    · rw [List.cons_append, firstDedupAux, if_neg ha, firstDedupAux, if_neg ha, ih]
      by_cases hka : k = a
      · subst hka
        simp [List.mem_cons]
      · simp only [List.mem_cons, List.cons_append]
        by_cases hks : k ∈ seen <;> by_cases hkx : k ∈ xs <;> simp [hka, hks, hkx]

theorem blockOfPairs_append (pairs : List (String × String)) (p : String × String) :
    blockOfPairs (pairs ++ [p]) = dictInsert (blockOfPairs pairs) p.1 (.str p.2) := by
  simp [blockOfPairs, List.foldl_append]

theorem lastVal_append (pairs : List (String × String)) (p : String × String) (k : String) :
    lastVal (pairs ++ [p]) k = if p.1 = k then some p.2 else lastVal pairs k := by
  simp [lastVal, List.foldl_append]

theorem parseLoop_flat (pairs : List (String × String)) :
    ∀ acc : Block,
      parseLoop (flatTokens pairs) acc [] =
        .ok (pairs.foldl (fun b p => dictInsert b p.1 (.str p.2)) acc) := by
  induction pairs with
  | nil => intro acc; rfl
  | cons p rest ih =>
    intro acc
    have h1 : flatTokens (p :: rest) = Token.str p.1 :: Token.str p.2 :: flatTokens rest := by
      simp [flatTokens]
    rw [h1, List.foldl_cons]
    rw [show parseLoop (Token.str p.1 :: Token.str p.2 :: flatTokens rest) acc []
          = parseLoop (flatTokens rest) (dictInsert acc p.1 (.str p.2)) [] from rfl]
    exact ih _

theorem lookup_blockOfPairs (pairs : List (String × String)) (k : String) :
    lookupKV (blockOfPairs pairs) k = (lastVal pairs k).map Node.str := by
  induction pairs using List.reverseRecOn with
  | nil => rfl
  | append_singleton pairs p ih =>
    rw [blockOfPairs_append, lastVal_append]
    by_cases h : p.1 = k
    · rw [if_pos h, h, lookup_dictInsert_self]
      rfl
    · rw [if_neg h, lookup_dictInsert_ne _ _ _ _ (fun hc => h hc.symm), ih]

theorem keys_blockOfPairs (pairs : List (String × String)) :
    (blockOfPairs pairs).map Prod.fst = firstDedupAux [] (pairs.map Prod.fst) := by
  induction pairs using List.reverseRecOn with
  | nil => rfl
  | append_singleton pairs p ih =>
    rw [blockOfPairs_append, keys_dictInsert, ih, List.map_append, List.map_singleton,
      firstDedupAux_append]
    have hmem : p.1 ∈ firstDedupAux [] (pairs.map Prod.fst) ↔ p.1 ∈ pairs.map Prod.fst := by
      rw [mem_firstDedupAux]
      simp
    by_cases h : p.1 ∈ pairs.map Prod.fst
    · rw [if_pos (hmem.2 h)]
      simp [h]
    · rw [if_neg (fun hc => h (hmem.1 hc))]
      simp [h]

/-- Claim C4: in a parsed document, a key occurring several times in one
block keeps the iteration position of its first occurrence and the value of
its last occurrence. Stated over every flat document (arbitrary key/value
pair lists, duplicates included): the parse succeeds and builds the block
by repeated dict assignment; looking up any key yields the value of its
last occurrence; the key iteration order is the first-occurrence
deduplication of the source key order. In particular the tokens of
`{"x" "1" "x" "2"}` (a document body with a duplicate key) parse to a block
mapping `x` to `"2"`. -/
theorem duplicate_key_last_write_first_position :
    (∀ pairs : List (String × String),
      parse_keyvalues (flatTokens pairs) = .ok (blockOfPairs pairs)
      ∧ (∀ k : String, lookupKV (blockOfPairs pairs) k = (lastVal pairs k).map Node.str)
      ∧ (blockOfPairs pairs).map Prod.fst = firstDedupAux [] (pairs.map Prod.fst))
    ∧ parse_keyvalues [Token.str "x", Token.str "1", Token.str "x", Token.str "2"]
        = .ok [("x", Node.str "2")] := by
  refine ⟨fun pairs => ⟨?_, fun k => lookup_blockOfPairs pairs k, keys_blockOfPairs pairs⟩, rfl⟩
  exact parseLoop_flat pairs []

/-! ### Tokenizer fuel elimination and state reachability -/

theorem quotedTail_length :
    ∀ (cs a r : List Char), quotedTail cs = some (a, r) → a.length + 1 + r.length = cs.length
  | [] => by
    intro a r h
    simp [quotedTail] at h
  | c :: rest => by
    intro a r h
    by_cases hq : (c == '"') = true
    · unfold quotedTail at h
      rw [if_pos hq] at h
      cases h
      simp only [List.length_nil, List.length_cons]
      omega
    · by_cases hb : (c == '\\') = true
      · unfold quotedTail at h
        rw [if_neg hq, if_pos hb] at h
        cases rest with
        | nil => simp at h
        | cons d r2 =>
          by_cases hd : (d == '\n') = true
          · simp [hd] at h
          · cases hqt : quotedTail r2 with
            | none => simp [hd, hqt] at h
            | some p =>
              have hrec := quotedTail_length r2 p.1 p.2 (by rw [hqt])
              simp only [hd, Bool.false_eq_true, if_false, hqt, Option.map_some',
                Option.some.injEq, Prod.mk.injEq] at h
              obtain ⟨ha, hr⟩ := h
              subst ha
              subst hr
              simp only [List.length_cons]
              omega
      · unfold quotedTail at h
        rw [if_neg hq, if_neg hb] at h
        cases hqt : quotedTail rest with
        | none => rw [hqt] at h; simp at h
        | some p =>
          have hrec := quotedTail_length rest p.1 p.2 (by rw [hqt])
          rw [hqt] at h
          simp only [Option.map_some', Option.some.injEq, Prod.mk.injEq] at h
          obtain ⟨ha, hr⟩ := h
          subst ha
          subst hr
          simp only [List.length_cons]
          omega

theorem tokenizeAux_fuel :
    ∀ (f : Nat) (g : Nat) (pos : Nat) (cs : List Char),
      cs.length < f → cs.length < g → tokenizeAux f pos cs = tokenizeAux g pos cs := by
  intro f
  induction f with
  | zero => intro g pos cs hf; omega
  | succ f ih =>
    intro g pos cs hf hg
    cases g with
    | zero => omega
    | succ g =>
      cases cs with
      | nil => rfl
      | cons c rest =>
        have hrest : rest.length < f ∧ rest.length < g := by
          simp only [List.length_cons] at hf hg
          omega
        simp only [tokenizeAux]
        by_cases hsp : pyIsSpace c
        · rw [if_pos hsp, if_pos hsp]
          exact ih g (pos + 1) rest hrest.1 hrest.2
        · rw [if_neg hsp, if_neg hsp]
          by_cases hcm : (c == '/' && rest.head? == some '/') = true
          · rw [if_pos hcm, if_pos hcm]
            cases hidx : rest.findIdx? (fun ch => ch == '\n') with
            | none => rfl
            | some j =>
              have hd : (rest.drop (j + 1)).length < f ∧ (rest.drop (j + 1)).length < g := by
                have := List.length_drop (j + 1) rest
                omega
              exact ih g (pos + j + 2) (rest.drop (j + 1)) hd.1 hd.2
          · rw [if_neg hcm, if_neg hcm]
            by_cases hl : (c == lbraceChar) = true
            · rw [if_pos hl, if_pos hl, ih g (pos + 1) rest hrest.1 hrest.2]
            · rw [if_neg hl, if_neg hl]
              by_cases hr : (c == rbraceChar) = true
              · rw [if_pos hr, if_pos hr, ih g (pos + 1) rest hrest.1 hrest.2]
              · rw [if_neg hr, if_neg hr]
                by_cases hq : (c == '"') = true
                · rw [if_pos hq, if_pos hq]
                  cases hqt : quotedTail rest with
                  | none => rfl
                  | some p =>
                    obtain ⟨a, r⟩ := p
                    have hlen := quotedTail_length rest a r (by rw [hqt])
                    have hp : r.length < f ∧ r.length < g := by omega
                    exact congrArg (Except.map _) (ih g (pos + a.length + 2) r hp.1 hp.2)
                · rw [if_neg hq, if_neg hq]
                  have hs' : pyIsSpace c = false := by
                    revert hsp; cases pyIsSpace c <;> simp
                  have hl' : (c == lbraceChar) = false := by
                    revert hl; cases c == lbraceChar <;> simp
                  have hr' : (c == rbraceChar) = false := by
                    revert hr; cases c == rbraceChar <;> simp
                  have hbare : bareChar c = true := by
                    simp [bareChar, hs', hl', hr']
                  have hrun : ((c :: rest).takeWhile bareChar).length
                      = (rest.takeWhile bareChar).length + 1 := by
                    simp [List.takeWhile_cons, hbare]
                  have hd : ((c :: rest).drop ((c :: rest).takeWhile bareChar).length).length < f
                      ∧ ((c :: rest).drop ((c :: rest).takeWhile bareChar).length).length < g := by
                    have h2 := List.length_drop (((c :: rest).takeWhile bareChar).length) (c :: rest)
                    simp only [List.length_cons] at h2 ⊢
                    omega
                  exact congrArg (Except.map _) (ih g _ _ hd.1 hd.2)

/-- The tokenizer restarted at offset `pos` on the remaining characters,
with just enough fuel; `tokenize_keyvalues text` is definitionally
`tokFrom 0 text.data`. -/
def tokFrom (pos : Nat) (cs : List Char) : Except TokenizeError (List Token) :=
  tokenizeAux (cs.length + 1) pos cs

theorem tokFrom_ws (pos : Nat) (c : Char) (rest : List Char) (h : pyIsSpace c = true) :
    tokFrom pos (c :: rest) = tokFrom (pos + 1) rest := by
  simp only [tokFrom, List.length_cons, tokenizeAux, h, if_true]

theorem tokFrom_comment (pos j : Nat) (rest : List Char)
    (h1 : rest.head? = some '/')
    (h2 : rest.findIdx? (fun ch => ch == '\n') = some j) :
    tokFrom pos ('/' :: rest) = tokFrom (pos + j + 2) (rest.drop (j + 1)) := by
  have hsp : pyIsSpace '/' = false := by decide
  have hd := List.length_drop (j + 1) rest
  simp only [tokFrom, List.length_cons, tokenizeAux, hsp, Bool.false_eq_true, if_false, h1, h2,
    beq_self_eq_true, Bool.and_self, if_true]
  exact tokenizeAux_fuel _ _ _ _ (by omega) (by omega)

theorem tokFrom_lbrace (pos : Nat) (rest : List Char) :
    tokFrom pos (lbraceChar :: rest) = (tokFrom (pos + 1) rest).map (fun ts => Token.lbrace :: ts) := by
  simp only [tokFrom, List.length_cons, tokenizeAux,
    show pyIsSpace lbraceChar = false by decide,
    show (lbraceChar == '/') = false by decide,
    show (lbraceChar == lbraceChar) = true by decide,
    Bool.false_eq_true, if_false, Bool.false_and, if_true]

theorem tokFrom_rbrace (pos : Nat) (rest : List Char) :
    tokFrom pos (rbraceChar :: rest) = (tokFrom (pos + 1) rest).map (fun ts => Token.rbrace :: ts) := by
  simp only [tokFrom, List.length_cons, tokenizeAux,
    show pyIsSpace rbraceChar = false by decide,
    show (rbraceChar == '/') = false by decide,
    show (rbraceChar == lbraceChar) = false by decide,
    show (rbraceChar == rbraceChar) = true by decide,
    Bool.false_eq_true, if_false, Bool.false_and, if_true]

theorem tokFrom_quote_none (pos : Nat) (rest : List Char) (h : quotedTail rest = none) :
    tokFrom pos ('"' :: rest) = .error (.malformedQuote pos) := by
  simp only [tokFrom, List.length_cons, tokenizeAux, h,
    show pyIsSpace '"' = false by decide,
    show ('"' == '/') = false by decide,
    show ('"' == lbraceChar) = false by decide,
    show ('"' == rbraceChar) = false by decide,
    show ('"' == '"') = true by decide,
    Bool.false_eq_true, if_false, Bool.false_and, if_true]

theorem tokFrom_quote_some (pos : Nat) (rest a r : List Char)
    (h : quotedTail rest = some (a, r)) :
    tokFrom pos ('"' :: rest)
      = (tokFrom (pos + a.length + 2) r).map
          (fun ts => Token.str (String.mk (pyUnescape a)) :: ts) := by
  have hlen := quotedTail_length rest a r h
  simp only [tokFrom, List.length_cons, tokenizeAux, h,
    show pyIsSpace '"' = false by decide,
    show ('"' == '/') = false by decide,
    show ('"' == lbraceChar) = false by decide,
    show ('"' == rbraceChar) = false by decide,
    show ('"' == '"') = true by decide,
    Bool.false_eq_true, if_false, Bool.false_and, if_true]
  rw [tokenizeAux_fuel (rest.length + 1) (r.length + 1) _ _ (by omega) (by omega)]

theorem tokFrom_bare (pos : Nat) (c : Char) (rest : List Char)
    (hs : pyIsSpace c = false)
    (hc : (c == '/' && rest.head? == some '/') = false)
    (hl : (c == lbraceChar) = false)
    (hr : (c == rbraceChar) = false)
    (hq : (c == '"') = false) :
    tokFrom pos (c :: rest)
      = (tokFrom (pos + ((c :: rest).takeWhile bareChar).length)
            ((c :: rest).drop ((c :: rest).takeWhile bareChar).length)).map
          (fun ts => Token.str (String.mk ((c :: rest).takeWhile bareChar)) :: ts) := by
  have hbare : bareChar c = true := by
    simp only [bareChar, Bool.and_eq_true, Bool.not_eq_true']
    exact ⟨⟨hs, hl⟩, hr⟩
  have hrun : ((c :: rest).takeWhile bareChar).length = (rest.takeWhile bareChar).length + 1 := by
    simp [List.takeWhile_cons, hbare]
  have h2 := List.length_drop (((c :: rest).takeWhile bareChar).length) (c :: rest)
  simp only [List.length_cons] at h2
  simp only [tokFrom, List.length_cons, tokenizeAux, hs, hc, hl, hr, hq, Bool.false_eq_true,
    if_false]
  rw [tokenizeAux_fuel (rest.length + 1)
    (((c :: rest).drop ((c :: rest).takeWhile bareChar).length).length + 1) _ _ (by omega) (by omega)]

/-- `TokReaches pos cs pos2 cs2`: started at offset `pos` with remaining
input `cs`, the loop of `tokenize_keyvalues` reaches (in zero or more
iterations) the state at offset `pos2` with remaining input `cs2`. Each
constructor mirrors one continuing branch of the loop with its guards. -/
inductive TokReaches : Nat → List Char → Nat → List Char → Prop where
  | refl (pos : Nat) (cs : List Char) : TokReaches pos cs pos cs
  | ws (pos : Nat) (c : Char) (rest : List Char) (pos2 : Nat) (cs2 : List Char)
      (h : pyIsSpace c = true)
      (next : TokReaches (pos + 1) rest pos2 cs2) : TokReaches pos (c :: rest) pos2 cs2
  | comment (pos j : Nat) (rest : List Char) (pos2 : Nat) (cs2 : List Char)
      (h1 : rest.head? = some '/')
      (h2 : rest.findIdx? (fun ch => ch == '\n') = some j)
      (next : TokReaches (pos + j + 2) (rest.drop (j + 1)) pos2 cs2) :
      TokReaches pos ('/' :: rest) pos2 cs2
  | lbr (pos : Nat) (rest : List Char) (pos2 : Nat) (cs2 : List Char)
      (next : TokReaches (pos + 1) rest pos2 cs2) : TokReaches pos (lbraceChar :: rest) pos2 cs2
  | rbr (pos : Nat) (rest : List Char) (pos2 : Nat) (cs2 : List Char)
      (next : TokReaches (pos + 1) rest pos2 cs2) : TokReaches pos (rbraceChar :: rest) pos2 cs2
  | quote (pos : Nat) (rest a r : List Char) (pos2 : Nat) (cs2 : List Char)
      (h : quotedTail rest = some (a, r))
      (next : TokReaches (pos + a.length + 2) r pos2 cs2) :
      TokReaches pos ('"' :: rest) pos2 cs2
  | bare (pos : Nat) (c : Char) (rest : List Char) (pos2 : Nat) (cs2 : List Char)
      (hs : pyIsSpace c = false)
      (hc : (c == '/' && rest.head? == some '/') = false)
      (hl : (c == lbraceChar) = false)
      (hr : (c == rbraceChar) = false)
      (hq : (c == '"') = false)
      (next : TokReaches (pos + ((c :: rest).takeWhile bareChar).length)
        ((c :: rest).drop ((c :: rest).takeWhile bareChar).length) pos2 cs2) :
      TokReaches pos (c :: rest) pos2 cs2

/-- Errors propagate backwards along reachability: if the tokenizer fails
from a reached state, the whole run fails with the same error. -/
theorem tokFrom_error_of_reaches
    {pos : Nat} {cs : List Char} {pos2 : Nat} {cs2 : List Char}
    (h : TokReaches pos cs pos2 cs2) {e : TokenizeError}
    (he : tokFrom pos2 cs2 = .error e) : tokFrom pos cs = .error e := by
  induction h with
  | refl => exact he
  | ws pos c rest pos2 cs2 h next ih => rw [tokFrom_ws pos c rest h]; exact ih he
  | comment pos j rest pos2 cs2 h1 h2 next ih => rw [tokFrom_comment pos j rest h1 h2]; exact ih he
  | lbr pos rest pos2 cs2 next ih => rw [tokFrom_lbrace, ih he]; rfl
  | rbr pos rest pos2 cs2 next ih => rw [tokFrom_rbrace, ih he]; rfl
  | quote pos rest a r pos2 cs2 h next ih => rw [tokFrom_quote_some pos rest a r h, ih he]; rfl
  | bare pos c rest pos2 cs2 hs hc hl hr hq next ih =>
    rw [tokFrom_bare pos c rest hs hc hl hr hq, ih he]; rfl

/-! ### Claim C5: unterminated quote, and key followed by `}` or EOF -/

/-- Claim C5: (1) whenever the tokenizer loop reaches a `"` that opens a
quoted string with no unescaped closing quote (the quote regex does not
match), tokenization fails with the malformed-quote `TokenizeError` carrying
that offset; (2) whenever the parser reads a key (a string token in key
position) that is immediately followed by a `CloseBlock` token or by the end
of the stream, parsing fails with the corresponding `ParseError`. -/
theorem unterminated_quote_and_dangling_key_fail :
    (∀ (text : String) (pos : Nat) (rest : List Char),
      TokReaches 0 text.data pos ('"' :: rest) → quotedTail rest = none →
      tokenize_keyvalues text = .error (.malformedQuote pos))
    ∧ (∀ (ts ts2 : List Token) (k : String) (acc2 : Block) (st2 : List (String × Block)),
      (PReaches ts [] [] (Token.str k :: Token.rbrace :: ts2) acc2 st2 →
        parse_keyvalues ts = .error .closeAfterKey)
      ∧ (PReaches ts [] [] [Token.str k] acc2 st2 →
        parse_keyvalues ts = .error (.eofAfterKey k))) := by
  constructor
  · intro text pos rest hreach hnone
    have : tokenize_keyvalues text = tokFrom 0 text.data := rfl
    rw [this]
    exact tokFrom_error_of_reaches hreach (tokFrom_quote_none pos rest hnone)
  · intro ts ts2 k acc2 st2
    constructor
    · intro h
      unfold parse_keyvalues
      rw [parseLoop_of_preaches h]
      rfl
    · intro h
      unfold parse_keyvalues
      rw [parseLoop_of_preaches h]
      rfl

/-- Witness for C5: the document `"ab` (opening quote never closed) fails
at offset 0, and the token streams `["k"]` and `["k", }]` fail with the
end-of-input / unexpected-close parse errors. -/
theorem unterminated_quote_and_dangling_key_fail_witness :
    tokenize_keyvalues "\"ab" = .error (.malformedQuote 0)
    ∧ parse_keyvalues [Token.str "k"] = .error (.eofAfterKey "k")
    ∧ parse_keyvalues [Token.str "k", Token.rbrace] = .error .closeAfterKey :=
  ⟨unterminated_quote_and_dangling_key_fail.1 "\"ab" 0 ['a', 'b'] (.refl _ _) rfl,
   (unterminated_quote_and_dangling_key_fail.2 [Token.str "k"] [] "k" [] []).2 (.refl _ _ _),
   (unterminated_quote_and_dangling_key_fail.2 [Token.str "k", Token.rbrace] [] "k" [] []).1
     (.refl _ _ _)⟩

/-! ### Claim C8: library discovery order and deduplication -/

theorem firstDedupAux_congr_seen (l : List String) :
    ∀ seen1 seen2 : List String, (∀ x, x ∈ seen1 ↔ x ∈ seen2) →
      firstDedupAux seen1 l = firstDedupAux seen2 l := by
  induction l with
  | nil => intro _ _ _; rfl
  | cons a l ih =>
    intro seen1 seen2 hs
    by_cases ha : a ∈ seen1
    · rw [firstDedupAux, if_pos ha, firstDedupAux, if_pos ((hs a).1 ha)]
      exact ih seen1 seen2 hs
    · rw [firstDedupAux, if_neg ha, firstDedupAux, if_neg (fun hc => ha ((hs a).2 hc))]
      refine congrArg _ (ih _ _ fun x => ?_)
      simp only [List.mem_cons]
      exact or_congr Iff.rfl (hs x)

theorem foldl_addLib (fs : FS) (ps : List String) :
    ∀ libs : List String,
      ps.foldl (addLib fs) libs
        = libs ++ firstDedupAux libs ((ps.map (canonPath fs)).filter (fun p => hasSteamapps fs p)) := by
  induction ps with
  | nil => intro libs; simp [firstDedupAux]
  | cons p rest ih =>
    intro libs
    rw [List.foldl_cons, List.map_cons]
    by_cases hq : hasSteamapps fs (canonPath fs p) = true
    · rw [List.filter_cons_of_pos hq]
      by_cases hm : canonPath fs p ∈ libs
      · have : addLib fs libs p = libs := by
          rw [addLib, if_neg (fun hc => hc.2 hm)]
        rw [this, ih, firstDedupAux, if_pos hm]
      · have : addLib fs libs p = libs ++ [canonPath fs p] := by
          rw [addLib, if_pos ⟨hq, hm⟩]
        rw [this, ih, firstDedupAux, if_neg hm, List.append_assoc]
        refine congrArg _ (congrArg _ ?_)
        refine (firstDedupAux_congr_seen _ _ _ fun x => ?_).symm
        simp only [List.mem_cons, List.mem_append, List.mem_singleton]
        tauto
    · rw [List.filter_cons_of_neg (by simp [hq])]
      have : addLib fs libs p = libs := by
        rw [addLib, if_neg (fun hc => hq hc.1)]
      rw [this, ih]

/-- The candidate paths `discover_library_paths` feeds to `add`, in order:
the root first, then the `"path"` entries of the `"libraryfolders"` block of
a readable, well-formed `libraryfolders.vdf` (or nothing when the file is
missing or malformed). -/
def library_candidates (fs : FS) (steam_root : String) : List String :=
  steam_root ::
    (match fs.fileContents (steam_root ++ "/steamapps/libraryfolders.vdf") with
     | none => []
     | some text =>
       match load_keyvalues_guarded text with
       | none => []
       | some kv =>
         match lookupKV kv "libraryfolders" with
         | some (.block root) => descriptorPaths root
         | _ => [])

theorem discover_eq_foldl (fs : FS) (steam_root : String) :
    discover_library_paths fs steam_root
      = (library_candidates fs steam_root).foldl (addLib fs) [] := by
  rw [discover_library_paths, library_candidates]
  split
  · rfl
  · split
    · rfl
    · split
      · rfl
      · rfl

/-- The filesystem of the specification's locator scenario: a Steam root
`/steam` whose `libraryfolders.vdf` lists two additional library paths, one
of which (`/steam`) equals the root, the other (`/lib2`) a distinct
qualifying library. -/
def fsLib : FS :=
  { home := "/home/u"
    dirs := ["/steam/steamapps", "/lib2/steamapps"]
    files := [("/steam/steamapps/libraryfolders.vdf",
      "\"libraryfolders\"\n\x7b\n  \"0\" \x7b \"path\" \"/lib2\" \x7d\n  \"1\" \x7b \"path\" \"/steam\" \x7d\n\x7d\n")] }

/-- Claim C8: `discover_library_paths` returns the root first (when its
`steamapps` child exists) followed by the descriptor's listed paths in
order, deduplicated by resolved path keeping the first occurrence: the
result is exactly the first-occurrence deduplication of the qualifying
candidates (root, then listed paths, each expanded and normalized). In
particular, against the root `/steam` whose descriptor lists `/lib2` and
`/steam` it returns exactly `["/steam", "/lib2"]`. -/
theorem discover_order_and_dedup :
    (∀ (fs : FS) (steam_root : String),
      discover_library_paths fs steam_root
        = firstDedupAux []
            (((library_candidates fs steam_root).map (canonPath fs)).filter
              (fun p => hasSteamapps fs p))
      ∧ (hasSteamapps fs (canonPath fs steam_root) = true →
          (discover_library_paths fs steam_root).head? = some (canonPath fs steam_root)))
    ∧ discover_library_paths fsLib "/steam" = ["/steam", "/lib2"] := by
  have hchar : ∀ (fs : FS) (steam_root : String),
      discover_library_paths fs steam_root
        = firstDedupAux []
            (((library_candidates fs steam_root).map (canonPath fs)).filter
              (fun p => hasSteamapps fs p)) := by
    intro fs steam_root
    rw [discover_eq_foldl, foldl_addLib]
    rfl
  refine ⟨fun fs steam_root => ⟨hchar fs steam_root, fun hq => ?_⟩, rfl⟩
  rw [hchar, library_candidates]
  cases hf : fs.fileContents (steam_root ++ "/steamapps/libraryfolders.vdf") with
  | none =>
    simp only [List.map_cons, List.map_nil, List.filter_cons_of_pos hq]
    rfl
  | some text =>
    simp only [List.map_cons, List.filter_cons_of_pos hq]
    rfl

/-- Witness for C8: on the concrete locator scenario the root qualifies and
indeed comes first. -/
theorem discover_order_and_dedup_witness :
    (discover_library_paths fsLib "/steam").head? = some "/steam" :=
  (discover_order_and_dedup.1 fsLib "/steam").2 rfl

/-! ### Order facts about Python string comparison, and the stable sort -/

theorem charLe_refl : ∀ l : List Char, charLe l l = true
  | [] => rfl
  | a :: as => by
    rw [charLe, if_neg (lt_irrefl a.toNat), if_neg (lt_irrefl a.toNat)]
    exact charLe_refl as

theorem charLe_total : ∀ a b : List Char, charLe a b = true ∨ charLe b a = true
  | [], _ => Or.inl rfl
  | _ :: _, [] => Or.inr rfl
  | a :: as, b :: bs => by
    rcases Nat.lt_trichotomy a.toNat b.toNat with h | h | h
    · left
      rw [charLe, if_pos h]
    · rw [charLe, charLe, if_neg (by omega), if_neg (by omega), if_neg (by omega),
        if_neg (by omega)]
      exact charLe_total as bs
    · right
      rw [charLe, if_pos h]

theorem charLe_trans : ∀ a b c : List Char,
    charLe a b = true → charLe b c = true → charLe a c = true
  | [], _, _ => by intro _ _; rfl
  | a :: as, [], _ => by intro h _; rw [charLe] at h; cases h
  | _ :: _, _ :: _, [] => by intro _ h; rw [charLe] at h; cases h
  | a :: as, b :: bs, c :: cs => by
    intro h1 h2
    rw [charLe] at h1 h2
    rw [charLe]
    by_cases hab : a.toNat < b.toNat
    · by_cases hbc : b.toNat < c.toNat
      · rw [if_pos (by omega)]
      · rw [if_neg hbc] at h2
        by_cases hcb : c.toNat < b.toNat
        · rw [if_pos hcb] at h2
          cases h2
        · rw [if_pos (by omega)]
    · rw [if_neg hab] at h1
      by_cases hba : b.toNat < a.toNat
      · rw [if_pos hba] at h1
        cases h1
      · rw [if_neg hba] at h1
        by_cases hbc : b.toNat < c.toNat
        · rw [if_pos (by omega)]
        · rw [if_neg hbc] at h2
          by_cases hcb : c.toNat < b.toNat
          · rw [if_pos hcb] at h2
            cases h2
          · rw [if_neg hcb] at h2
            rw [if_neg (by omega), if_neg (by omega)]
            exact charLe_trans as bs cs h1 h2

theorem gameLe_refl_of_key_eq {g h : Game} (hk : pyCasefold g.name = pyCasefold h.name) :
    gameLe g h = true := by
  rw [gameLe, strLe, hk]
  exact charLe_refl _

theorem gameLe_total (g h : Game) : gameLe g h = true ∨ gameLe h g = true :=
  charLe_total _ _

theorem gameLe_trans {g h i : Game} (h1 : gameLe g h = true) (h2 : gameLe h i = true) :
    gameLe g i = true :=
  charLe_trans _ _ _ h1 h2

theorem insertSorted_perm (le : α → α → Bool) (x : α) :
    ∀ l : List α, (insertSorted le x l).Perm (x :: l)
  | [] => List.Perm.refl _
  | y :: ys => by
    rw [insertSorted]
    by_cases h : le x y = true
    · rw [if_pos h]
    · rw [if_neg h]
      exact ((insertSorted_perm le x ys).cons y).trans (List.Perm.swap x y ys)

theorem pySorted_perm (le : α → α → Bool) : ∀ l : List α, (pySorted le l).Perm l
  | [] => List.Perm.refl _
  | x :: xs =>
    (insertSorted_perm le x (pySorted le xs)).trans ((pySorted_perm le xs).cons x)

theorem length_pySorted (le : α → α → Bool) (l : List α) :
    (pySorted le l).length = l.length :=
  (pySorted_perm le l).length_eq

theorem mem_pySorted (le : α → α → Bool) (l : List α) (x : α) :
    x ∈ pySorted le l ↔ x ∈ l :=
  (pySorted_perm le l).mem_iff

theorem pairwise_insertSorted (x : Game) :
    ∀ l : List Game, l.Pairwise (fun a b => gameLe a b = true) →
      (insertSorted gameLe x l).Pairwise (fun a b => gameLe a b = true)
  | [], _ => List.pairwise_singleton _ x
  | y :: ys, h => by
    rw [insertSorted]
    rcases List.pairwise_cons.1 h with ⟨hy, hys⟩
    by_cases hle : gameLe x y = true
    · rw [if_pos hle]
      refine List.pairwise_cons.2 ⟨?_, h⟩
      intro z hz
      rcases List.mem_cons.1 hz with rfl | hz
      · exact hle
      · exact gameLe_trans hle (hy z hz)
    · rw [if_neg hle]
      have hyx : gameLe y x = true := (gameLe_total x y).resolve_left hle
      refine List.pairwise_cons.2 ⟨?_, pairwise_insertSorted x ys hys⟩
      intro z hz
      rcases List.mem_cons.1 ((insertSorted_perm gameLe x ys).mem_iff.1 hz) with rfl | hz2
      · exact hyx
      · exact hy z hz2

theorem pairwise_pySorted :
    ∀ l : List Game, (pySorted gameLe l).Pairwise (fun a b => gameLe a b = true)
  | [] => List.Pairwise.nil
  | x :: xs => pairwise_insertSorted x (pySorted gameLe xs) (pairwise_pySorted xs)

theorem filter_insertSorted (k : String) (x : Game) :
    ∀ l : List Game,
      (insertSorted gameLe x l).filter (fun g => pyCasefold g.name == k)
        = if pyCasefold x.name == k then
            x :: l.filter (fun g => pyCasefold g.name == k)
          else l.filter (fun g => pyCasefold g.name == k)
  | [] => by
    rw [insertSorted]
    by_cases h : pyCasefold x.name == k <;> simp [List.filter, h]
  | y :: ys => by
    rw [insertSorted]
    by_cases hle : gameLe x y = true
    · rw [if_pos hle]
      by_cases h : pyCasefold x.name == k <;> simp [List.filter, h]
    · rw [if_neg hle]
      have hkey : ¬ pyCasefold y.name = pyCasefold x.name := by
        intro he
        exact hle (gameLe_refl_of_key_eq he.symm)
      by_cases hx : pyCasefold x.name == k
      · have hxk : pyCasefold x.name = k := by simpa using hx
        have hy : (pyCasefold y.name == k) = false := by
          simp only [beq_eq_false_iff_ne, ne_eq]
          rw [hxk] at hkey
          exact hkey
        simp only [List.filter, hy, filter_insertSorted k x ys, hx, if_true]
      · simp only [Bool.not_eq_true] at hx
        by_cases hy : pyCasefold y.name == k <;>
          simp [List.filter, hy, filter_insertSorted k x ys, hx]

theorem filter_pySorted (k : String) :
    ∀ l : List Game,
      (pySorted gameLe l).filter (fun g => pyCasefold g.name == k)
        = l.filter (fun g => pyCasefold g.name == k)
  | [] => rfl
  | x :: xs => by
    rw [pySorted, filter_insertSorted]
    by_cases h : pyCasefold x.name == k <;>
      simp [List.filter, h, filter_pySorted k xs]

/-! ### Reconciler lemmas -/

theorem charPrefix_append : ∀ p t : List Char, charPrefix (p ++ t) p = true
  | [], t => by cases t <;> rfl
  | a :: p, t => by
    rw [List.cons_append, charPrefix]
    simp [charPrefix_append p t]

/-- A name of the synthesized placeholder shape starts with `"App "`. -/
theorem strStartsWith_placeholder (s : String) :
    strStartsWith ("App " ++ s) "App " = true := by
  rw [strStartsWith, String.data_append]
  exact charPrefix_append _ _

theorem keys_setName (merged : List (Int × Game)) (o : Int) (nm : String) :
    (setName merged o nm).map Prod.fst = merged.map Prod.fst := by
  rw [setName, List.map_map]
  refine List.map_congr_left fun p _ => ?_
  by_cases h : p.1 = o <;> simp [h]

theorem length_setName (merged : List (Int × Game)) (o : Int) (nm : String) :
    (setName merged o nm).length = merged.length := by
  rw [setName, List.length_map]

theorem lookup_mem_nodup {κ α : Type} [DecidableEq κ] :
    ∀ l : List (κ × α), (l.map Prod.fst).Nodup → ∀ p : κ × α, p ∈ l →
      lookupKV l p.1 = some p.2
  | [], _, p, hp => absurd hp (List.not_mem_nil p)
  | q :: r, hn, p, hp => by
    rcases List.mem_cons.1 hp with rfl | hp'
    · simp [lookupKV]
    · have hne : q.1 ≠ p.1 := by
        intro he
        rcases List.pairwise_cons.1 hn with ⟨hq, _⟩
        exact hq p.1 (List.mem_map.2 ⟨p, hp', rfl⟩) he
      rw [lookupKV, if_neg hne]
      exact lookup_mem_nodup r (List.pairwise_cons.1 hn).2 p hp'

theorem pair_unique_nodup {κ α : Type} [DecidableEq κ]
    (l : List (κ × α)) (hn : (l.map Prod.fst).Nodup) {k : κ} {x y : α}
    (hx : (k, x) ∈ l) (hy : (k, y) ∈ l) : x = y := by
  have h1 := lookup_mem_nodup l hn (k, x) hx
  have h2 := lookup_mem_nodup l hn (k, y) hy
  rw [h1] at h2
  exact (Option.some.injEq _ _ ▸ h2 :)

/-- The rename the `owned` loop of `merge_games` applies to one entry of
the starting map: the name becomes the owned record's name exactly when the
current name starts with `"App "` and the owned map carries a string name
for the same appid; nothing else changes. -/
def ownedNameUpdate (owned : List (Int × OwnedGame)) (p : Int × Game) : Int × Game :=
  (p.1,
    if strStartsWith p.2.name "App " = true then
      match (lookupKV owned p.1).bind OwnedGame.name with
      | some nm => { p.2 with name := nm }
      | none => p.2
    else p.2)

theorem mergeLoop_step_update (fs : FS) (root : String)
    (merged : List (Int × Game)) (o : Int) (og : OwnedGame)
    (rest : List (Int × OwnedGame)) (g : Game) (nm : String)
    (h1 : lookupKV merged o = some g) (h2 : og.name = some nm)
    (h3 : strStartsWith g.name "App " = true) :
    merge_games_loop fs root merged ((o, og) :: rest)
      = merge_games_loop fs root (setName merged o nm) rest := by
  simp only [merge_games_loop, h1, h2, h3, if_true]

theorem mergeLoop_step_skip_name (fs : FS) (root : String)
    (merged : List (Int × Game)) (o : Int) (og : OwnedGame)
    (rest : List (Int × OwnedGame)) (g : Game) (nm : String)
    (h1 : lookupKV merged o = some g) (h2 : og.name = some nm)
    (h3 : strStartsWith g.name "App " = false) :
    merge_games_loop fs root merged ((o, og) :: rest)
      = merge_games_loop fs root merged rest := by
  simp only [merge_games_loop, h1, h2, h3, Bool.false_eq_true, if_false]

theorem mergeLoop_step_skip_none (fs : FS) (root : String)
    (merged : List (Int × Game)) (o : Int) (og : OwnedGame)
    (rest : List (Int × OwnedGame)) (g : Game)
    (h1 : lookupKV merged o = some g) (h2 : og.name = none) :
    merge_games_loop fs root merged ((o, og) :: rest)
      = merge_games_loop fs root merged rest := by
  simp only [merge_games_loop, h1, h2]

/-- The fresh not-installed record appended for an owned-only appid. -/
def newOwnedGame (fs : FS) (root : String) (appid : Int) (og : OwnedGame) : Game :=
  { appid := appid
    name :=
      let t := pyStrip (og.name.getD "")
      if t = "" then "App " ++ toString appid else t
    installed := false
    library_path := ""
    installdir := ""
    state_flags := 0
    size_on_disk := 0
    cover := find_cover fs root appid }

theorem mergeLoop_step_append (fs : FS) (root : String)
    (merged : List (Int × Game)) (o : Int) (og : OwnedGame)
    (rest : List (Int × OwnedGame))
    (h1 : lookupKV merged o = none) :
    merge_games_loop fs root merged ((o, og) :: rest)
      = merge_games_loop fs root (merged ++ [(o, newOwnedGame fs root o og)]) rest := by
  simp only [merge_games_loop, h1, newOwnedGame]

/-- Characterization of the prefix of the merge loop's result that models
the `installed` dict after the call (the loop mutates the shared `Game`
objects in place and appends new entries only at the end): every starting
entry is updated by `ownedNameUpdate` and nothing else. -/
theorem mergeLoop_take (fs : FS) (root : String) :
    ∀ (owned : List (Int × OwnedGame)) (merged : List (Int × Game)),
      (merged.map Prod.fst).Nodup → (owned.map Prod.fst).Nodup →
      (merge_games_loop fs root merged owned).take merged.length
        = merged.map (ownedNameUpdate owned)
  | [], merged, _, _ => by
    rw [merge_games_loop, List.take_length]
    have h : ∀ p ∈ merged, ownedNameUpdate [] p = id p := by
      intro p _
      simp [ownedNameUpdate, lookupKV]
    rw [List.map_congr_left h, List.map_id]
  | (o, og) :: rest, merged, hm, ho => by
    have honodup : (rest.map Prod.fst).Nodup := (List.pairwise_cons.1 ho).2
    have honotin : o ∉ rest.map Prod.fst := by
      intro hc
      exact (List.pairwise_cons.1 ho).1 o hc rfl
    have hrestnone : lookupKV rest o = none := (lookupKV_eq_none_iff rest o).2 honotin
    cases hlk : lookupKV merged o with
    | some g =>
      cases hnm : og.name with
      | some nm =>
        cases hsw : strStartsWith g.name "App " with
        | true =>
          rw [mergeLoop_step_update fs root merged o og rest g nm hlk hnm hsw]
          have hkeys := keys_setName merged o nm
          have hlen := length_setName merged o nm
          rw [← hlen,
            mergeLoop_take fs root rest (setName merged o nm) (hkeys ▸ hm) honodup]
          rw [setName, List.map_map]
          refine List.map_congr_left fun p hp => ?_
          by_cases hpo : p.1 = o
          · have hpg : p.2 = g := by
              have h5 := lookup_mem_nodup merged hm p hp
              rw [hpo, hlk] at h5
              exact (Option.some.inj h5).symm
            simp [ownedNameUpdate, hpo, hpg, hsw, hrestnone, hnm, lookupKV]
          · have hop : ¬o = p.1 := fun h => hpo h.symm
            simp [ownedNameUpdate, hpo, hop, lookupKV]
        | false =>
          rw [mergeLoop_step_skip_name fs root merged o og rest g nm hlk hnm hsw,
            mergeLoop_take fs root rest merged hm honodup]
          refine List.map_congr_left fun p hp => ?_
          by_cases hpo : p.1 = o
          · have hpg : p.2 = g := by
              have h5 := lookup_mem_nodup merged hm p hp
              rw [hpo, hlk] at h5
              exact (Option.some.inj h5).symm
            simp [ownedNameUpdate, hpo, hpg, hsw, hrestnone, hnm, lookupKV]
          · have hop : ¬o = p.1 := fun h => hpo h.symm
            simp [ownedNameUpdate, hpo, hop, lookupKV]
      | none =>
        rw [mergeLoop_step_skip_none fs root merged o og rest g hlk hnm,
          mergeLoop_take fs root rest merged hm honodup]
        refine List.map_congr_left fun p hp => ?_
        by_cases hpo : p.1 = o
        · simp [ownedNameUpdate, hpo, hrestnone, hnm, lookupKV]
        · have hop : ¬o = p.1 := fun h => hpo h.symm
          simp [ownedNameUpdate, hpo, hop, lookupKV]
    | none =>
      have hco : o ∉ merged.map Prod.fst := (lookupKV_eq_none_iff merged o).1 hlk
      rw [mergeLoop_step_append fs root merged o og rest hlk]
      have hm' : (((merged ++ [(o, newOwnedGame fs root o og)]).map Prod.fst)).Nodup := by
        rw [List.map_append]
        rw [List.nodup_append]
        exact ⟨hm, List.nodup_singleton o, by simpa using hco⟩
      have ht := mergeLoop_take fs root rest (merged ++ [(o, newOwnedGame fs root o og)]) hm' honodup
      have hstep : (merge_games_loop fs root (merged ++ [(o, newOwnedGame fs root o og)]) rest).take merged.length
          = ((merged ++ [(o, newOwnedGame fs root o og)]).map (ownedNameUpdate rest)).take merged.length := by
        rw [← ht, List.take_take]
        congr 1
        simp [List.length_append]
      rw [hstep, List.map_append]
      rw [show merged.length = (merged.map (ownedNameUpdate rest)).length by simp,
        List.take_left]
      refine List.map_congr_left fun p hp => ?_
      have hpo : ¬p.1 = o := by
        intro he
        exact hco (he ▸ List.mem_map.2 ⟨p, hp, rfl⟩)
      have hop : ¬o = p.1 := fun h => hpo h.symm
      simp [ownedNameUpdate, hop, lookupKV]

theorem mergeLoop_length_disjoint (fs : FS) (root : String) :
    ∀ (owned : List (Int × OwnedGame)) (merged : List (Int × Game)),
      (owned.map Prod.fst).Nodup →
      (∀ i, i ∈ owned.map Prod.fst → i ∉ merged.map Prod.fst) →
      (merge_games_loop fs root merged owned).length = merged.length + owned.length
  | [], merged, _, _ => by rw [merge_games_loop]; rfl
  | (o, og) :: rest, merged, ho, hdisj => by
    have honodup : (rest.map Prod.fst).Nodup := (List.pairwise_cons.1 ho).2
    have honotin : o ∉ rest.map Prod.fst := by
      intro hc
      exact (List.pairwise_cons.1 ho).1 o hc rfl
    have hlk : lookupKV merged o = none :=
      (lookupKV_eq_none_iff merged o).2 (hdisj o (by simp))
    rw [mergeLoop_step_append fs root merged o og rest hlk]
    have hdisj' : ∀ i, i ∈ rest.map Prod.fst →
        i ∉ (merged ++ [(o, newOwnedGame fs root o og)]).map Prod.fst := by
      intro i hi
      rw [List.map_append]
      intro hc
      rcases List.mem_append.1 hc with hc | hc
      · exact hdisj i (by simp [hi]) hc
      · simp only [List.map_cons, List.map_nil, List.mem_singleton] at hc
        exact honotin (hc ▸ hi)
    rw [mergeLoop_length_disjoint fs root rest (merged ++ [(o, newOwnedGame fs root o og)])
      honodup hdisj']
    simp only [List.length_append, List.length_cons, List.length_nil]
    omega

theorem mergeLoop_appid_inv (fs : FS) (root : String) :
    ∀ (owned : List (Int × OwnedGame)) (merged : List (Int × Game)),
      (∀ p, p ∈ merged → (p.2 : Game).appid = p.1) →
      ∀ q, q ∈ merge_games_loop fs root merged owned → (q.2 : Game).appid = q.1
  | [], merged, hinv => by rw [merge_games_loop]; exact hinv
  | (o, og) :: rest, merged, hinv => by
    cases hlk : lookupKV merged o with
    | some g =>
      cases hnm : og.name with
      | some nm =>
        cases hsw : strStartsWith g.name "App " with
        | true =>
          rw [mergeLoop_step_update fs root merged o og rest g nm hlk hnm hsw]
          refine mergeLoop_appid_inv fs root rest _ ?_
          intro p hp
          rw [setName] at hp
          rcases List.mem_map.1 hp with ⟨q, hq, rfl⟩
          by_cases hqo : q.1 = o <;> simp [hqo, hinv q hq]
        | false =>
          rw [mergeLoop_step_skip_name fs root merged o og rest g nm hlk hnm hsw]
          exact mergeLoop_appid_inv fs root rest merged hinv
      | none =>
        rw [mergeLoop_step_skip_none fs root merged o og rest g hlk hnm]
        exact mergeLoop_appid_inv fs root rest merged hinv
    | none =>
      rw [mergeLoop_step_append fs root merged o og rest hlk]
      refine mergeLoop_appid_inv fs root rest _ ?_
      intro p hp
      rcases List.mem_append.1 hp with hp | hp
      · exact hinv p hp
      · rcases List.mem_singleton.1 hp with rfl
        rfl

theorem mergeLoop_keys_nodup (fs : FS) (root : String) :
    ∀ (owned : List (Int × OwnedGame)) (merged : List (Int × Game)),
      (merged.map Prod.fst).Nodup →
      ((merge_games_loop fs root merged owned).map Prod.fst).Nodup
  | [], merged, hm => by rw [merge_games_loop]; exact hm
  | (o, og) :: rest, merged, hm => by
    cases hlk : lookupKV merged o with
    | some g =>
      cases hnm : og.name with
      | some nm =>
        cases hsw : strStartsWith g.name "App " with
        | true =>
          rw [mergeLoop_step_update fs root merged o og rest g nm hlk hnm hsw]
          exact mergeLoop_keys_nodup fs root rest _ ((keys_setName merged o nm).symm ▸ hm)
        | false =>
          rw [mergeLoop_step_skip_name fs root merged o og rest g nm hlk hnm hsw]
          exact mergeLoop_keys_nodup fs root rest merged hm
      | none =>
        rw [mergeLoop_step_skip_none fs root merged o og rest g hlk hnm]
        exact mergeLoop_keys_nodup fs root rest merged hm
    | none =>
      rw [mergeLoop_step_append fs root merged o og rest hlk]
      refine mergeLoop_keys_nodup fs root rest _ ?_
      rw [List.map_append, List.nodup_append]
      refine ⟨hm, List.nodup_singleton o, ?_⟩
      simpa using (lookupKV_eq_none_iff merged o).1 hlk

/-- Members of a prefix (`take`) are members of the whole list. -/
theorem mem_of_mem_take {α : Type} {l : List α} {n : Nat} {x : α}
    (h : x ∈ l.take n) : x ∈ l :=
  ((List.take_sublist n l).subset) h

/-! ### Claim C1 (corrected): output order of the Reconciler -/

/-- Counterexample to claim C1 as stated: two installed records with the
byte-identical name `"x"` and app_ids 10 and 5, in that map order, come out
of `merge_games` still in the order 10 before 5 — `sorted` is stable and
keyed only on the casefolded name, so equal names keep map order instead of
being tie-broken by ascending app_id. -/
def fs0 : FS := { home := "/h", dirs := [], files := [] }

/-- An installed record named `"x"` with app_id 10 (shared by the C1
counterexample and the merge examples). -/
def gX10 : Game :=
  { appid := 10, name := "x", installed := true, library_path := "/L",
    installdir := "", state_flags := 0, size_on_disk := 0, cover := "" }

/-- The same record with app_id 5. -/
def gX5 : Game := { gX10 with appid := 5 }

theorem merge_equal_names_keep_map_order_cex :
    (merge_games fs0 "/r" [(10, gX10), (5, gX5)] []).map (fun g => (g.appid, g.name))
      = [(10, "x"), (5, "x")] := rfl

/-- Claim C1 (amended): the list returned by `merge_games` is ordered
case-insensitively lexicographically by name; records with equal casefolded
names appear in the order of the merged mapping (installed entries first in
their map order, then owned-only entries in owned order) — the sort is
stable on the casefold key and is not tie-broken by app_id. -/
theorem merge_sorted_casefold_and_stable (fs : FS) (root : String)
    (installed : List (Int × Game)) (owned : List (Int × OwnedGame)) :
    (merge_games fs root installed owned).Pairwise
      (fun a b => strLe (pyCasefold a.name) (pyCasefold b.name) = true)
    ∧ ∀ k : String,
      (merge_games fs root installed owned).filter (fun g => pyCasefold g.name == k)
        = ((merge_games_loop fs root installed owned).map Prod.snd).filter
            (fun g => pyCasefold g.name == k) := by
  constructor
  · exact pairwise_pySorted _
  · intro k
    exact filter_pySorted k _

/-! ### Claim C2 (corrected): the merge mutates its `installed` input -/

/-- An installed record carrying the synthesized placeholder name
`"App 1"`. -/
def gApp1 : Game :=
  { appid := 1, name := "App 1", installed := true, library_path := "/L",
    installdir := "", state_flags := 0, size_on_disk := 0, cover := "" }

/-- Counterexample to claim C2 as stated: `merge_games` does **not** leave
the `installed` records unmodified. `merged = dict(installed)` shares the
`Game` objects with `installed`, and the loop assigns
`merged[appid].name = og["name"]` in place, so after merging
`{1: Game(name="App 1")}` with owned `{1: {name: "Portal"}}` the installed
record's name field reads `"Portal"`, not `"App 1"`. The post-call state of
the installed map is the prefix of the loop's map (new entries are only
appended after it). -/
theorem merge_mutates_installed_input_cex :
    (merge_games_loop fs0 "/r" [(1, gApp1)] [(1, ⟨some "Portal"⟩)]).take 1
      ≠ [(1, gApp1)] := by
  decide

/-- Claim C2 (amended): the merge is a deterministic function of its
arguments (as ordered maps, together with the filesystem consulted for
covers), but it is not pure in `installed`: after the call, each installed
record's name has been replaced in place by the owned record's name exactly
when the record's name started with `"App "` and the owned map holds a
string name for the same app_id; every other field and every other record
is unchanged. -/
theorem merge_updates_installed_names_in_place (fs : FS) (root : String)
    (installed : List (Int × Game)) (owned : List (Int × OwnedGame))
    (hm : (installed.map Prod.fst).Nodup) (ho : (owned.map Prod.fst).Nodup) :
    (merge_games_loop fs root installed owned).take installed.length
      = installed.map (ownedNameUpdate owned) :=
  mergeLoop_take fs root owned installed hm ho

/-- Witness for the amended C2: on the concrete placeholder scenario the
post-call installed map reads `Portal`. -/
theorem merge_updates_installed_names_in_place_witness :
    (merge_games_loop fs0 "/r" [(1, gApp1)] [(1, ⟨some "Portal"⟩)]).take 1
      = [(1, { gApp1 with name := "Portal" })] := by
  exact merge_updates_installed_names_in_place fs0 "/r" [(1, gApp1)]
    [(1, ⟨some "Portal"⟩)] (by decide) (by decide)

/-! ### Claim C3: disjoint merge count and placeholder name override -/

theorem lookup_some_mem {κ α : Type} [DecidableEq κ] :
    ∀ (l : List (κ × α)) (k : κ) (v : α), lookupKV l k = some v → (k, v) ∈ l
  | [], _, _, h => by simp [lookupKV] at h
  | p :: r, k, v, h => by
    by_cases hk : p.1 = k
    · rw [lookupKV, if_pos hk] at h
      have hpv : p = (k, v) := Prod.ext hk (Option.some.inj h)
      rw [← hpv]
      exact List.mem_cons_self p r
    · rw [lookupKV, if_neg hk] at h
      exact List.mem_cons_of_mem p (lookup_some_mem r k v h)

/-- Claim C3: (1) for installed and owned maps with no shared app_id,
`merge_games` returns exactly `|installed| + |owned|` records; (2) for an
app_id present in both whose installed record still carries the synthesized
placeholder name `"App <appid>"` and whose owned record carries a name, the
merged catalog contains exactly one record with that app_id, and it is the
installed record with only its name replaced by the owned name — so
`installed = true` and `library_path` are unchanged from the installed
record. -/
theorem merge_disjoint_count_and_placeholder_override
    (fs : FS) (root : String)
    (installed : List (Int × Game)) (owned : List (Int × OwnedGame)) :
    ((installed.map Prod.fst).Nodup → (owned.map Prod.fst).Nodup →
      (∀ i, i ∈ installed.map Prod.fst → i ∉ owned.map Prod.fst) →
      (merge_games fs root installed owned).length = installed.length + owned.length)
    ∧ (∀ (a : Int) (r : Game) (og : OwnedGame) (nm : String),
        (installed.map Prod.fst).Nodup → (owned.map Prod.fst).Nodup →
        (∀ p, p ∈ installed → (p.2 : Game).appid = p.1) →
        lookupKV installed a = some r → r.name = "App " ++ toString a →
        lookupKV owned a = some og → og.name = some nm →
        ({ r with name := nm } ∈ merge_games fs root installed owned
         ∧ ∀ g, g ∈ merge_games fs root installed owned → g.appid = a →
             g = { r with name := nm })) := by
  constructor
  · intro hm ho hdisj
    rw [merge_games, length_pySorted, List.length_map]
    exact mergeLoop_length_disjoint fs root owned installed ho
      (fun i hi hc => hdisj i hc hi)
  · intro a r og nm hm ho hinv hlr hpl hlo hognm
    have hmem : (a, r) ∈ installed := lookup_some_mem installed a r hlr
    have hupd : ownedNameUpdate owned (a, r) = (a, { r with name := nm }) := by
      have hsw : strStartsWith r.name "App " = true := by
        rw [hpl]
        exact strStartsWith_placeholder (toString a)
      simp [ownedNameUpdate, hsw, hlo, hognm]
    have hpair : (a, { r with name := nm }) ∈ merge_games_loop fs root installed owned := by
      have hpre : (a, { r with name := nm })
          ∈ (merge_games_loop fs root installed owned).take installed.length := by
        rw [mergeLoop_take fs root owned installed hm ho]
        exact hupd ▸ List.mem_map.2 ⟨(a, r), hmem, rfl⟩
      exact mem_of_mem_take hpre
    constructor
    · rw [merge_games, mem_pySorted]
      exact List.mem_map.2 ⟨(a, { r with name := nm }), hpair, rfl⟩
    · intro g hg hga
      rw [merge_games, mem_pySorted] at hg
      rcases List.mem_map.1 hg with ⟨q, hq, rfl⟩
      have hq1 : q.1 = q.2.appid :=
        (mergeLoop_appid_inv fs root owned installed hinv q hq).symm
      have hqa : q = (a, q.2) := by
        have h1 : q.1 = a := by rw [hq1, hga]
        exact Prod.ext h1 rfl
      have hnodup := mergeLoop_keys_nodup fs root owned installed hm
      exact pair_unique_nodup _ hnodup (hqa ▸ hq) hpair

/-- Witness for C3: disjoint installed `{10}` and owned `{20}` merge to two
records, and the placeholder-named installed record for app_id 1 comes out
with the owned name `"Portal"`. -/
theorem merge_disjoint_count_and_placeholder_override_witness :
    (merge_games fs0 "/r" [(10, gX10)] [(20, ⟨some "Rocket"⟩)]).length = 1 + 1
    ∧ { gApp1 with name := "Portal" }
        ∈ merge_games fs0 "/r" [(1, gApp1)] [(1, ⟨some "Portal"⟩)] :=
  ⟨(merge_disjoint_count_and_placeholder_override fs0 "/r" [(10, gX10)]
      [(20, ⟨some "Rocket"⟩)]).1 (by decide) (by decide)
      (by intro i hi hc; simp at hi hc; omega),
   ((merge_disjoint_count_and_placeholder_override fs0 "/r" [(1, gApp1)]
      [(1, ⟨some "Portal"⟩)]).2 1 gApp1 ⟨some "Portal"⟩ "Portal" (by decide) (by decide)
      (by intro p hp; simp at hp; rw [hp]; rfl) rfl rfl rfl rfl).1⟩

/-! ### Claim C7: manifest extraction, numeric fallbacks, placeholder name -/

/-- Claim C7: for a parsed manifest tree whose `"AppState"` block is
`appstate`: the numeric fields are read through `_int` (string conversion
with fallback 0, stated explicitly for unparseable strings); an `appid`
converting to 0 (absent, unparseable, or literally `"0"`) produces no
record; and an extracted record's name is the placeholder `"App <appid>"`
whenever the `name` field is absent or blank. The byte counters, read by
the downloads projection of the same `AppState` block, follow the same
conversion rule. -/
theorem extractor_numeric_fallbacks_and_placeholder
    (fs : FS) (root lib : String) (kv : Block) (appstate : Block)
    (hks : lookupKV kv "AppState" = some (.block appstate)) :
    (_int (lookupKV appstate "appid") = 0 →
      parse_installed_game fs root lib kv = none
      ∧ _maybe_download_entry appstate lib = none)
    ∧ (∀ g, parse_installed_game fs root lib kv = some g →
        g.appid = _int (lookupKV appstate "appid")
        ∧ g.appid ≠ 0
        ∧ g.state_flags = _int (lookupKV appstate "StateFlags")
        ∧ g.size_on_disk = _int (lookupKV appstate "SizeOnDisk")
        ∧ (∀ s, lookupKV appstate "StateFlags" = some (.str s) → pyParseInt s = none →
            g.state_flags = 0)
        ∧ (∀ s, lookupKV appstate "SizeOnDisk" = some (.str s) → pyParseInt s = none →
            g.size_on_disk = 0)
        ∧ ((lookupKV appstate "name" = none
              ∨ ∃ s, lookupKV appstate "name" = some (.str s) ∧ pyStrip s = "") →
            g.name = "App " ++ toString g.appid))
    ∧ (∀ e, _maybe_download_entry appstate lib = some e →
        e.bytes_downloaded = _int (lookupKV appstate "BytesDownloaded")
        ∧ e.bytes_to_download = _int (lookupKV appstate "BytesToDownload")
        ∧ e.bytes_to_stage = _int (lookupKV appstate "BytesToStage")
        ∧ (∀ s, lookupKV appstate "BytesDownloaded" = some (.str s) → pyParseInt s = none →
            e.bytes_downloaded = 0)) := by
  refine ⟨fun h0 => ⟨?_, ?_⟩, fun g hg => ?_, fun e he => ?_⟩
  · simp only [parse_installed_game, hks, h0, if_pos rfl, if_true]
  · simp only [_maybe_download_entry, h0, if_pos rfl, if_true]
  · by_cases h0 : _int (lookupKV appstate "appid") = 0
    · simp only [parse_installed_game, hks, h0, if_pos rfl, if_true] at hg
      cases hg
    · simp only [parse_installed_game, hks, if_neg h0] at hg
      obtain rfl := (Option.some.inj hg).symm
      refine ⟨rfl, h0, rfl, rfl, fun s hs hp => ?_, fun s hs hp => ?_, fun hname => ?_⟩
      · simp [hs, _int, pyStrOfOpt, hp]
      · simp [hs, _int, pyStrOfOpt, hp]
      · rcases hname with hname | ⟨s, hs, hblank⟩
        · simp [hname, orEmptyStr, pyStrip, stripChars]
        · simp [hs, orEmptyStr, hblank]
  · by_cases h0 : _int (lookupKV appstate "appid") = 0
    · simp only [_maybe_download_entry, h0, if_pos rfl, if_true] at he
      cases he
    · simp only [_maybe_download_entry, if_neg h0] at he
      by_cases hc : _int (lookupKV appstate "BytesToDownload") ≤ 0
          ∧ _int (lookupKV appstate "BytesToStage") ≤ 0
      · rw [if_pos hc] at he
        cases he
      · rw [if_neg hc] at he
        obtain rfl := (Option.some.inj he).symm
        exact ⟨rfl, rfl, rfl, fun s hs hp => by simp [hs, _int, pyStrOfOpt, hp]⟩

/-- The `AppState` block of the C7 witness manifest: valid appid `7`, an
unparseable `StateFlags`, a blank name, no `SizeOnDisk`. -/
def appstateBlank : Block :=
  [("appid", .str "7"), ("StateFlags", .str "abc"), ("name", .str "  ")]

/-- A manifest tree whose appid does not parse. -/
def kvBadAppid : Block := [("AppState", .block [("appid", .str "x")])]

/-- Witness for C7: the blank-name manifest extracts to a record with
fallback-0 numeric fields and the placeholder name, and the unparseable
appid yields no record. -/
theorem extractor_numeric_fallbacks_and_placeholder_witness :
    parse_installed_game fs0 "/r" "/lib" [("AppState", .block appstateBlank)]
      = some { appid := 7, name := "App 7", installed := true, library_path := "/lib",
               installdir := "", state_flags := 0, size_on_disk := 0, cover := "" }
    ∧ (∀ g, parse_installed_game fs0 "/r" "/lib" [("AppState", .block appstateBlank)]
          = some g → g.state_flags = 0 ∧ g.name = "App " ++ toString g.appid)
    ∧ parse_installed_game fs0 "/r" "/lib" kvBadAppid = none := by
  refine ⟨rfl, fun g hg => ?_, ?_⟩
  · have h := (extractor_numeric_fallbacks_and_placeholder fs0 "/r" "/lib"
      [("AppState", .block appstateBlank)] appstateBlank rfl).2.1 g hg
    exact ⟨h.2.2.2.2.1 "abc" rfl rfl, h.2.2.2.2.2.2 (Or.inr ⟨"  ", rfl, rfl⟩)⟩
  · exact ((extractor_numeric_fallbacks_and_placeholder fs0 "/r" "/lib" kvBadAppid
      [("appid", .str "x")] rfl).1 rfl).1

/-! ### Claim C9 (corrected): the download-progress view -/

/-- The progress formula exactly as the specification words it: the clamped
quotient, with 0.0 only when the denominator is literally 0. Stated for
comparison with the code's behaviour; the code instead returns 0.0 whenever
the denominator is not positive. -/
def claimed_progress (bd btd : Int) : ℚ :=
  if bd + max btd 0 = 0 then 0
  else clamp01 ((bd : ℚ) / ((bd + max btd 0 : Int) : ℚ))

/-- The `AppState` block of the C9 counterexample: a negative
`BytesDownloaded` (as `_int` produces for a manifest string `"-5"`) with a
pending stage. -/
def appstateNeg : Block :=
  [("appid", .str "1"), ("BytesDownloaded", .str "-5"), ("BytesToStage", .str "1")]

/-- Counterexample to claim C9 as stated: on `bytes_downloaded = -5`,
`bytes_to_download = 0`, `bytes_to_stage = 1` the record is included and the
code's progress is `0.0` (the denominator `-5` is not positive), while the
claim's formula — the clamped quotient, `0.0` only when the denominator is
`0` — gives `clamp01((-5)/(-5)) = 1`. -/
theorem download_progress_formula_cex :
    (_maybe_download_entry appstateNeg "/L").map
        (fun e => (e.bytes_downloaded, e.bytes_to_download, e.progress))
      = some (-5, 0, 0)
    ∧ claimed_progress (-5) 0 = 1
    ∧ (0 : ℚ) ≠ 1 := by
  refine ⟨by decide, ?_, by norm_num⟩
  rw [claimed_progress]
  norm_num [clamp01]

/-- Claim C9 (amended): a record (with a valid appid) is included in the
download view iff `bytes_to_download > 0` or `bytes_to_stage > 0`; an
included record's progress is the quotient
`bytes_downloaded / (bytes_downloaded + max(bytes_to_download, 0))` clamped
to `[0, 1]` when that denominator is positive, and `0.0` when the
denominator is zero **or negative**. -/
theorem download_view_inclusion_and_progress (appstate : Block) (lib : String)
    (h0 : _int (lookupKV appstate "appid") ≠ 0) :
    ((_maybe_download_entry appstate lib).isSome = true
      ↔ (_int (lookupKV appstate "BytesToDownload") > 0
         ∨ _int (lookupKV appstate "BytesToStage") > 0))
    ∧ (∀ e, _maybe_download_entry appstate lib = some e →
        e.total_bytes = e.bytes_downloaded + max e.bytes_to_download 0
        ∧ e.progress =
            (if e.total_bytes > 0 then
              clamp01 ((e.bytes_downloaded : ℚ) / (e.total_bytes : ℚ))
             else 0)) := by
  constructor
  · by_cases hc : _int (lookupKV appstate "BytesToDownload") ≤ 0
        ∧ _int (lookupKV appstate "BytesToStage") ≤ 0
    · rw [show _maybe_download_entry appstate lib = none by
        simp only [_maybe_download_entry, if_neg h0]
        rw [if_pos hc]]
      simp only [Option.isSome_none, Bool.false_eq_true, false_iff]
      omega
    · rw [show (_maybe_download_entry appstate lib).isSome = true by
        simp only [_maybe_download_entry, if_neg h0]
        rw [if_neg hc]
        rfl]
      simp only [true_iff]
      omega
  · intro e he
    simp only [_maybe_download_entry, if_neg h0] at he
    by_cases hc : _int (lookupKV appstate "BytesToDownload") ≤ 0
        ∧ _int (lookupKV appstate "BytesToStage") ≤ 0
    · rw [if_pos hc] at he
      cases he
    · rw [if_neg hc] at he
      obtain rfl := (Option.some.inj he).symm
      exact ⟨rfl, rfl⟩

/-- The `AppState` block of the C9 witness: only a pending stage. -/
def appstateStage : Block := [("appid", .str "3"), ("BytesToStage", .str "1")]

/-- Witness for the amended C9: a record with a pending stage is included,
and its progress is 0 (zero denominator). -/
theorem download_view_inclusion_and_progress_witness :
    (_maybe_download_entry appstateStage "/L").isSome = true
    ∧ (_maybe_download_entry appstateStage "/L").map DownloadEntry.progress = some 0 := by
  refine ⟨(download_view_inclusion_and_progress appstateStage "/L" (by decide)).1.2
    (Or.inr (by decide)), by decide⟩

end MiyaShell
